import Mathlib

/-!
# file_storage: upload validation, sanitisation, storage and routing

A shallow embedding of `internal/handler/upload.go`, `internal/storage/local.go`
and the route table of `cmd/server/main.go`.

Modelling conventions.

* A Go `string` is a Lean `String`: filenames are taken to be valid UTF-8 text,
  so that a byte scan for the ASCII bytes `.` `/` `\` and a scan over code
  points see the same positions.
* `int64` sizes are `Int`; the only operation on them is a comparison.
* The operating system is Linux: `os.PathSeparator` is `/`, a file name has at
  most 255 bytes and a path fewer than 4096.
* The file system maps cleaned paths to what is stored there; a path is
  resolved directory by directory, so that a missing directory, a regular file
  on the way and a name that is too long give their own errors.
* Standard-library functions the handlers call (`filepath.Ext`,
  `strings.ToLower`, `strings.ReplaceAll`, `filepath.Join`) are embedded from
  the Go standard library sources.  The Unicode case table behind
  `unicode.ToLower` for non-ASCII runes is a parameter `lowerTable`.
-/

namespace FileStorage

/-! ## Standard-library functions -/

/-- The function `os.IsPathSeparator` on Unix. -/
def IsPathSeparator (c : Char) : Bool := c == '/'

/-- The loop of `filepath.Ext`: `rev` holds `path[0..i]` reversed (so its head is
`path[i]`), `acc` holds `path[i+1:]`.  The scan stops at a path separator. -/
def extLoop : List Char → List Char → List Char
  | [], _ => []
  | c :: rev, acc =>
    if IsPathSeparator c then []
    else if c = '.' then c :: acc
    else extLoop rev (c :: acc)

/-- The function `filepath.Ext`: the suffix beginning at the final dot in the
final element of `path`; empty if there is no dot. -/
def Ext (path : String) : String := ⟨extLoop path.data.reverse []⟩

/-- The function `unicode.ToLower`: ASCII letters are shifted by `'a' - 'A'`, other
ASCII runes are unchanged, and non-ASCII runes go through the case table. -/
def unicodeToLower (lowerTable : Char → Char) (r : Char) : Char :=
  if r.toNat ≤ 0x7F then
    if 'A'.toNat ≤ r.toNat ∧ r.toNat ≤ 'Z'.toNat then Char.ofNat (r.toNat + ('a'.toNat - 'A'.toNat))
    else r
  else lowerTable r

/-- The ASCII fast path of `strings.ToLower`: only `A`..`Z` change. -/
def asciiLowerByte (c : Char) : Char :=
  if 'A'.toNat ≤ c.toNat ∧ c.toNat ≤ 'Z'.toNat then Char.ofNat (c.toNat + ('a'.toNat - 'A'.toNat)) else c

/-- The function `strings.ToLower`: when the string is all ASCII it is returned
unchanged if it has no upper-case letter and otherwise rewritten letter by
letter; a string with a non-ASCII rune is mapped with `unicode.ToLower`. -/
def ToLower (lowerTable : Char → Char) (s : String) : String :=
  let isASCII := s.data.all (fun c => c.toNat < 0x80)
  let hasUpper := s.data.any (fun c => 'A'.toNat ≤ c.toNat ∧ c.toNat ≤ 'Z'.toNat)
  if isASCII then
    if !hasUpper then s else ⟨s.data.map asciiLowerByte⟩
  else ⟨s.data.map (unicodeToLower lowerTable)⟩

/-- The replacement loop of `strings.Replace` for a non-empty `old`, as a
left-to-right scan: `skip` counts the characters of a matched `old` still to be
passed over. -/
def replaceLoop (old new : List Char) : Nat → List Char → List Char
  | _, [] => []
  | skip + 1, _ :: s => replaceLoop old new skip s
  | 0, c :: s =>
    if old.isPrefixOf (c :: s) then new ++ replaceLoop old new (old.length - 1) s
    else c :: replaceLoop old new 0 s

/-- The function `strings.ReplaceAll`: every non-overlapping instance of `old` is
replaced by `new`; an empty `old` matches before every rune and at the end. -/
def ReplaceAll (s old new : String) : String :=
  if old = new then s
  else if old.data = [] then ⟨new.data ++ s.data.foldr (fun c acc => c :: (new.data ++ acc)) []⟩
  else ⟨replaceLoop old.data new.data 0 s.data⟩

/-- The inner loop of the `..` case of `filepath.Clean`: from write index `w`, step
back while `w > dotdot` and `out[w]` is not a separator. -/
def backtrackLoop (out : List Char) (dotdot : Nat) : Nat → Nat
  | 0 => 0
  | w + 1 =>
    if w + 1 > dotdot ∧ ¬ IsPathSeparator (out.getD (w + 1) '/') then backtrackLoop out dotdot w
    else w + 1

/-- The "add slash if needed" step of `filepath.Clean` before a real path element. -/
def addSlash (rooted : Bool) (out : List Char) : List Char :=
  if (rooted && out.length != 1) || (!rooted && out.length != 0) then out ++ ['/'] else out

/-- The main loop of `filepath.Clean` over the unread rest of the path.  `out` is
the output buffer (`out.w` is its length) and `dotdot` the index where `..`
must stop; both are returned.  The flag is true while the loop is inside
"copy element"; the third and fourth equations are the cases `r+1 == n` and
`r+1 < n`. -/
def cleanLoop (rooted : Bool) : Bool → List Char → List Char → Nat → List Char × Nat
  | _, [], out, dotdot => (out, dotdot)
  | true, c :: rest, out, dotdot =>
    if IsPathSeparator c then cleanLoop rooted false rest out dotdot
    else cleanLoop rooted true rest (out ++ [c]) dotdot
  | false, [c], out, dotdot =>
    if IsPathSeparator c then cleanLoop rooted false [] out dotdot
    else if c = '.' then cleanLoop rooted false [] out dotdot
    else cleanLoop rooted true [] (addSlash rooted out ++ [c]) dotdot
  | false, c :: c1 :: rest, out, dotdot =>
    if IsPathSeparator c then
      -- empty path element
      cleanLoop rooted false (c1 :: rest) out dotdot
    else if c = '.' ∧ IsPathSeparator c1 then
      -- . element
      cleanLoop rooted false (c1 :: rest) out dotdot
    else if c = '.' ∧ c1 = '.' ∧ (rest = [] ∨ rest.head?.map IsPathSeparator = some true) then
      -- .. element: remove to last separator
      if out.length > dotdot then
        -- can backtrack
        cleanLoop rooted false rest (out.take (backtrackLoop out dotdot (out.length - 1))) dotdot
      else if !rooted then
        -- cannot backtrack, but not rooted, so append .. element.
        let out1 := (if out.length > 0 then out ++ ['/'] else out) ++ ['.', '.']
        cleanLoop rooted false rest out1 out1.length
      else cleanLoop rooted false rest out dotdot
    else
      -- real path element: add slash if needed, copy element
      cleanLoop rooted true (c1 :: rest) (addSlash rooted out ++ [c]) dotdot

/-- The function `filepath.Clean` on Unix (no volume name). -/
def Clean (path : String) : String :=
  match path.data with
  | [] => "."
  | c :: rest =>
    let rooted := IsPathSeparator c
    let out :=
      (if rooted then cleanLoop rooted false rest ['/'] 1 else cleanLoop rooted false (c :: rest) [] 0).1
    -- Turn empty string into "."
    if out.length = 0 then "." else ⟨out⟩

/-- The function `filepath.Join` for two elements: empty elements are ignored, the
rest joined with the separator and cleaned. -/
def Join (dir name : String) : String :=
  if dir ≠ "" then Clean (dir ++ "/" ++ name)
  else if name ≠ "" then Clean name
  else ""

/-- A single path element that is neither `.` nor `..`. -/
def IsElement (n : List Char) : Prop := n ≠ [] ∧ '/' ∉ n ∧ n ≠ ['.'] ∧ n ≠ ['.', '.']

/-! ## `internal/handler/upload.go`: validation and sanitisation -/

/-- The part of `multipart.FileHeader` the handler reads. -/
structure FileHeader where
  Filename : String
  Size : Int
deriving DecidableEq, Repr

/-- The slice `allowedExts` of `validateFile`. -/
def allowedExts : List String :=
  [".jpg", ".jpeg", ".png", ".gif", ".pdf", ".txt", ".doc", ".docx", ".xls", ".xlsx"]

/-- The `for ... range allowedExts` loop of `validateFile`, with its `break`. -/
def allowedLoop (ext : String) : List String → Bool
  | [] => false
  | allowedExt :: rest => if ext = allowedExt then true else allowedLoop ext rest

/-- The function `validateFile`: `none` is Go's `nil` error, `some msg` an error
with that message. -/
def validateFile (lowerTable : Char → Char) (header : FileHeader) : Option String :=
  if header.Size > 10 * 2 ^ 20 then
    some "file too large (max 10MB)"
  else
    let ext := ToLower lowerTable (Ext header.Filename)
    let allowed := allowedLoop ext allowedExts
    if !allowed then some "file type not allowed" else none

/-- The reference for `validateFile`, in the words of the specification: the
size limit first, then the list of extensions. -/
def validateFileSpec (lowerTable : Char → Char) (size : Int) (filename : String) : Option String :=
  if size > 10485760 then some "file too large (max 10MB)"
  else if ToLower lowerTable (Ext filename) ∈
      [".jpg", ".jpeg", ".png", ".gif", ".pdf", ".txt", ".doc", ".docx", ".xls", ".xlsx"] then none
  else some "file type not allowed"

/-- The character map of the sanitisation: both separators become an underscore. -/
def sanitizeChar (c : Char) : Char := if c = '/' ∨ c = '\\' then '_' else c

/-- The function `generateSafeFilename`. -/
def generateSafeFilename (originalName : String) : String :=
  let safeName := ReplaceAll originalName "/" "_"
  let safeName := ReplaceAll safeName "\\" "_"
  safeName

/-! ## The file system seen by `internal/storage/local.go`

A map from cleaned paths to what is stored there, resolved component by
component as the operating system does. -/

/-- An error of type `error` returned by the `os` package. -/
inductive IOError
  | notExist      -- ENOENT: `os.IsNotExist` holds
  | permission    -- EACCES
  | isDirectory   -- EISDIR
  | noSpace       -- ENOSPC
  | notDirectory  -- ENOTDIR: `os.IsNotExist` does not hold
  | nameTooLong   -- ENAMETOOLONG: `os.IsNotExist` does not hold
deriving DecidableEq, Repr

/-- What is stored under one path. -/
inductive Node
  | absent                     -- nothing
  | file (data : List Nat)     -- a regular file and its bytes
  | dir                        -- a directory
  | denied                     -- something the process may not examine or open
deriving DecidableEq, Repr

/-- What the operating system finds when it resolves a path. -/
inductive Entry
  | file (data : List Nat)     -- a regular file and its bytes
  | dir                        -- a directory
  | fails (err : IOError)      -- the resolution fails with this error
deriving DecidableEq, Repr

/-- The state of the file system: what is stored under every path and the number
of bytes that can still be written. -/
structure FS where
  node : String → Node
  free : Nat

/-- The store `fs` with the node under `path` replaced. -/
def FS.set (fs : FS) (path : String) (n : Node) (free : Nat) : FS :=
  { node := fun p => if p = path then n else fs.node p, free := free }

/-- The constant `NAME_MAX` of Linux: the longest file name, in bytes. -/
def nameMax : Nat := 255

/-- The constant `PATH_MAX` of Linux: the longest path, in bytes, with its
terminator. -/
def pathMax : Nat := 4096

/-- The length of a string in bytes (UTF-8). -/
def byteLen (s : List Char) : Nat := (s.map Char.utf8Size).sum

/-- The steps of resolving a path: each component with the path read up to and
including it.  `pre` is the path read so far and `comp` the component being
read, both reversed.  Empty components and `.` make no step. -/
def stepsLoop : List Char → List Char → List Char → List (String × String)
  | [], pre, comp => if comp = [] ∨ comp = ['.'] then [] else [(⟨pre.reverse⟩, ⟨comp.reverse⟩)]
  | c :: rest, pre, comp =>
    if c = '/' then
      if comp = [] ∨ comp = ['.'] then stepsLoop rest (c :: pre) []
      else (⟨pre.reverse⟩, ⟨comp.reverse⟩) :: stepsLoop rest (c :: pre) []
    else stepsLoop rest (c :: pre) (c :: comp)

/-- The steps of resolving `path` from the root or the working directory. -/
def steps (path : String) : List (String × String) := stepsLoop path.data [] []

/-- The walk through the directories a path passes: the error that stops it, `none`
when every step is a directory. -/
def walk (fs : FS) : List (String × String) → Option IOError
  | [] => none
  | (p, comp) :: rest =>
    if nameMax < byteLen comp.data then some .nameTooLong
    else
      match fs.node p with
      | .absent => some .notExist
      | .denied => some .permission
      | .file _ => some .notDirectory
      | .dir => walk fs rest

/-- The resolution of a path: the walk through its directories, then the lookup of
its last component. -/
def FS.entry (fs : FS) (path : String) : Entry :=
  if path = "" then .fails .notExist
  else if pathMax ≤ byteLen path.data then .fails .nameTooLong
  else
    match walk fs (steps path).dropLast with
    | some err => .fails err
    | none =>
      match (steps path).getLast? with
      | none => .dir   -- the root or the working directory itself
      | some (p, comp) =>
        if nameMax < byteLen comp.data then .fails .nameTooLong
        else
          match fs.node p with
          | .absent => .fails .notExist
          | .denied => .fails .permission
          | .file data => .file data
          | .dir => .dir

/-- The error of `os.Stat(path)`, `none` when it succeeds. -/
def Stat (fs : FS) (path : String) : Option IOError :=
  match fs.entry path with
  | .fails err => some err
  | .file _ => none
  | .dir => none

/-- Something exists at `path`: it resolves to a file or a directory. -/
def pathExists (fs : FS) (path : String) : Bool :=
  match fs.entry path with
  | .file _ => true
  | .dir => true
  | .fails _ => false

/-- The function `os.IsNotExist` (with `nil` not an error). -/
def IsNotExist (err : Option IOError) : Bool := err = some .notExist

/-- The function `os.Create(path)`: creates or truncates the named file.  On
success the result carries the path under which the open file is stored. -/
def Create (fs : FS) (path : String) : FS × Except IOError String :=
  if path = "" then (fs, .error .notExist)
  else if pathMax ≤ byteLen path.data then (fs, .error .nameTooLong)
  else
    match walk fs (steps path).dropLast with
    | some err => (fs, .error err)
    | none =>
      match (steps path).getLast? with
      | none => (fs, .error .isDirectory)
      | some (p, comp) =>
        if nameMax < byteLen comp.data then (fs, .error .nameTooLong)
        else
          match fs.node p with
          | .absent => (fs.set p (.file []) fs.free, .ok p)
          | .file old => (fs.set p (.file []) (fs.free + old.length), .ok p)
          | .dir => (fs, .error .isDirectory)
          | .denied => (fs, .error .permission)

/-- The function `io.Copy(out, r)` into the freshly created file `out`: all of `r`
is written when there is room, otherwise what fits is written and the copy
fails. -/
def Copy (fs : FS) (out : String) (r : List Nat) : FS × Option IOError :=
  if r.length ≤ fs.free then (fs.set out (.file r) (fs.free - r.length), none)
  else (fs.set out (.file (r.take fs.free)) 0, some .noSpace)

/-- The loop of `os.MkdirAll`: every missing directory on the way is created; it
stops at the first step that is not a directory and cannot be made one. -/
def mkdirLoop (fs : FS) : List (String × String) → FS
  | [] => fs
  | (p, comp) :: rest =>
    if nameMax < byteLen comp.data then fs
    else
      match fs.node p with
      | .absent => mkdirLoop (fs.set p .dir fs.free) rest
      | .dir => mkdirLoop fs rest
      | .file _ => fs
      | .denied => fs

/-- The function `os.MkdirAll(path, os.ModePerm)`, its error dropped. -/
def MkdirAll (fs : FS) (path : String) : FS := mkdirLoop fs (steps (Clean path))

/-- The type `LocalStorage`. -/
structure LocalStorage where
  Dir : String
deriving DecidableEq, Repr

/-- The function `NewLocalStorage`: the storage and the file system it leaves. -/
def NewLocalStorage (dir : String) (fs : FS) : LocalStorage × FS :=
  ({ Dir := dir }, MkdirAll fs dir)

/-- The method `LocalStorage.Save`. -/
def LocalStorage.Save (s : LocalStorage) (fs : FS) (name : String) (r : List Nat) : FS × Option IOError :=
  let filePath := Join s.Dir name
  match Create fs filePath with
  | (fs1, .error err) => (fs1, some err)
  | (fs1, .ok out) => Copy fs1 out r

/-- The method `LocalStorage.Load`: the pair `(string, error)` it returns. -/
def LocalStorage.Load (s : LocalStorage) (fs : FS) (filename : String) : String × Option IOError :=
  let filePath := Join s.Dir filename
  let err := Stat fs filePath
  if IsNotExist err then ("", err) else (filePath, none)

/-! ## HTTP requests and responses -/

/-- The struct `UploadResponse`. -/
structure UploadResponse where
  Filename : String
  URL : String
  Size : Int
  Message : String
deriving DecidableEq, Repr

/-- The struct `ErrorResponse`. -/
structure ErrorResponse where
  Message : String
deriving DecidableEq, Repr

/-- What a handler writes as the response body. -/
inductive Body
  | empty
  | text (s : String)                 -- plain text
  | jsonError (r : ErrorResponse)     -- `json.NewEncoder(w).Encode(response)`
  | jsonUpload (r : UploadResponse)
  | bytes (data : List Nat)           -- the content of a served file
  | html                              -- the static page of `serveHTML`
  | dirList                           -- a directory listing of `http.ServeFile`
deriving DecidableEq, Repr

/-- The response a handler produced: status code, header map, body.  The header
map tracks the headers set by the handlers of this repository and by
`http.Error`. -/
structure Response where
  status : Nat
  header : List (String × String)
  body : Body
deriving DecidableEq, Repr

/-- The call `w.Header().Set(key, value)`. -/
def setHeader (h : List (String × String)) (key value : String) : List (String × String) :=
  h.filter (fun kv => kv.1 ≠ key) ++ [(key, value)]

/-- The call `w.Header().Get(key)`. -/
def getHeader (h : List (String × String)) (key : String) : Option String :=
  (h.find? (fun kv => kv.1 = key)).map Prod.snd

/-- An uploaded file of a parsed multipart form: its header and its bytes. -/
structure FormFile where
  header : FileHeader
  content : List Nat
deriving DecidableEq, Repr

/-- The file fields of a parsed multipart form the handler asks for:
`r.FormFile("file")` and `r.FormFile("image")`, `none` when the call fails. -/
structure MultipartForm where
  file : Option FormFile
  image : Option FormFile
deriving DecidableEq, Repr

/-- The parts of `http.Request` the server reads.  `Path` is `r.URL.Path`, the
path chi routes on when the request line carried no percent-escape;
`multipart` is the outcome of `r.ParseMultipartForm(32 << 20)`, `none` when it
returns an error. -/
structure Request where
  Method : String
  Path : String
  multipart : Option MultipartForm
deriving DecidableEq, Repr

/-- The function `http.Error`: a plain-text reply. -/
def httpError (h : List (String × String)) (error : String) (code : Nat) : Response :=
  { status := code
    header := setHeader (setHeader h "Content-Type" "text/plain; charset=utf-8") "X-Content-Type-Options" "nosniff"
    body := .text (error ++ "\n") }

/-- The function `sendErrorResponse`. -/
def sendErrorResponse (h : List (String × String)) (message : String) (statusCode : Nat) : Response :=
  let response : ErrorResponse := { Message := message }
  { status := statusCode
    header := setHeader h "Content-Type" "application/json"
    body := .jsonError response }

/-- The lookup of the uploaded file: `r.FormFile("file")` and, when that fails,
`r.FormFile("image")` for backward compatibility. -/
def formFile (form : MultipartForm) : Option FormFile :=
  match form.file with
  | some f => some f
  | none => form.image

/-- The handler returned by `UploadHandler(store)`: the response and the file
system it leaves. -/
def UploadHandler (lowerTable : Char → Char) (store : LocalStorage) (fs : FS) (r : Request) :
    Response × FS :=
  -- Set CORS headers for web interface
  let h := setHeader [] "Access-Control-Allow-Origin" "*"
  let h := setHeader h "Access-Control-Allow-Methods" "POST, OPTIONS"
  let h := setHeader h "Access-Control-Allow-Headers" "Content-Type"
  if r.Method = "OPTIONS" then
    ({ status := 200, header := h, body := .empty }, fs)
  else
    match r.multipart with
    | none => (httpError h "Failed to parse form" 400, fs)
    | some form =>
      match formFile form with
      | none => (sendErrorResponse h "No file provided" 400, fs)
      | some f =>
        match validateFile lowerTable f.header with
        | some msg => (sendErrorResponse h msg 400, fs)
        | none =>
          let filename := generateSafeFilename f.header.Filename
          match store.Save fs filename f.content with
          | (fs1, some _) => (sendErrorResponse h "Failed to save file" 500, fs1)
          | (fs1, none) =>
            let response : UploadResponse :=
              { Filename := filename
                URL := "/files/" ++ filename
                Size := f.header.Size
                Message := "File uploaded successfully" }
            ({ status := 201
               header := setHeader h "Content-Type" "application/json"
               body := .jsonUpload response }, fs1)

/-- The `switch ext` of `ServeHandler`: the value it sets for `Content-Type`. -/
def serveContentType (lowerTable : Char → Char) (filename : String) : String :=
  let ext := ToLower lowerTable (Ext filename)
  if ext = ".jpg" ∨ ext = ".jpeg" then "image/jpeg"
  else if ext = ".png" then "image/png"
  else if ext = ".gif" then "image/gif"
  else if ext = ".pdf" then "application/pdf"
  else if ext = ".txt" then "text/plain"
  else "application/octet-stream"

/-- The extension to MIME type table of the specification. -/
def contentTypeSpec (ext : String) : String :=
  if ext = ".jpg" then "image/jpeg"
  else if ext = ".jpeg" then "image/jpeg"
  else if ext = ".png" then "image/png"
  else if ext = ".gif" then "image/gif"
  else if ext = ".pdf" then "application/pdf"
  else if ext = ".txt" then "text/plain"
  else "application/octet-stream"

/-- The function `isSlashRune` of `net/http`. -/
def isSlashRune (r : Char) : Bool := r == '/' || r == '\\'

/-- The call `strings.FieldsFunc(v, isSlashRune)`: the maximal runs of runes that
are not slashes; `cur` is the run being read, reversed. -/
def fieldsLoop : List Char → List Char → List String
  | [], cur => if cur = [] then [] else [⟨cur.reverse⟩]
  | c :: rest, cur =>
    if isSlashRune c then (if cur = [] then fieldsLoop rest [] else ⟨cur.reverse⟩ :: fieldsLoop rest [])
    else fieldsLoop rest (c :: cur)

/-- The function `containsDotDot` of `net/http`: some element of the path is `..`. -/
def containsDotDot (v : String) : Bool :=
  (fieldsLoop v.data []).any (fun ent => ent = "..")

/-- The function `http.ServeFile(w, r, name)` for a request without range or
conditional headers: it refuses a URL path with a `..` element and redirects
a URL path ending in `/index.html`; a file that cannot be opened is answered
404 when it or a directory on the way is missing, 403 when permission is
denied and 500 otherwise; a directory is redirected unless the URL path ends
in a slash, and then answered with its `index.html` or a listing; a file is
answered with its bytes, keeping a `Content-Type` that is already set. -/
def ServeFile (fs : FS) (h : List (String × String)) (urlPath name : String) : Response :=
  if containsDotDot urlPath then httpError h "invalid URL path" 400
  else if "/index.html".data.isSuffixOf urlPath.data then
    { status := 301, header := h, body := .empty }
  else
    match fs.entry name with
    | .fails .notExist => httpError h "404 page not found" 404
    | .fails .notDirectory => httpError h "404 page not found" 404
    | .fails .permission => httpError h "403 Forbidden" 403
    | .fails _ => httpError h "500 Internal Server Error" 500
    | .file data => { status := 200, header := h, body := .bytes data }
    | .dir =>
      if urlPath.data.getLast? ≠ some '/' then { status := 301, header := h, body := .empty }
      else
        match fs.entry (name ++ "/index.html") with
        | .file data => { status := 200, header := h, body := .bytes data }
        | _ => { status := 200, header := setHeader h "Content-Type" "text/html; charset=utf-8", body := .dirList }

/-- The handler returned by `ServeHandler(store)`; `filename` is
`chi.URLParam(r, "filename")`. -/
def ServeHandler (lowerTable : Char → Char) (store : LocalStorage) (fs : FS) (r : Request)
    (filename : String) : Response :=
  if filename = "" then httpError [] "Filename required" 400
  else
    match store.Load fs filename with
    | (_, some _) => httpError [] "File not found" 404
    | (filePath, none) =>
      let h := setHeader [] "Content-Type" (serveContentType lowerTable filename)
      ServeFile fs h r.Path filePath

/-! ## `cmd/server/main.go`: the route table -/

/-- The handlers `main` registers. -/
inductive Handler
  | swagger      -- `httpSwagger.Handler(...)`
  | upload       -- `handler.UploadHandler(store)`
  | serve        -- `handler.ServeHandler(store)`
  | serveHTML
deriving DecidableEq, Repr

/-- A piece of a chi routing pattern. -/
inductive Seg
  | lit (s : String)       -- literal text
  | param (key : String)   -- `{key}`: one non-empty path segment
  | wildcard               -- a final `*`: the rest of the path
deriving DecidableEq, Repr

/-- One registration `r.Method(pattern, handler)`. -/
structure Route where
  method : String
  pattern : List Seg
  handler : Handler
deriving DecidableEq, Repr

/-- The routes registered in `main`, in order: `r.Get("/swagger/*", ...)`,
`r.Post("/upload", ...)`, `r.Get("/files/{filename}", ...)`, `r.Get("/", ...)`. -/
def mainRoutes : List Route :=
  [ { method := "GET", pattern := [.lit "/swagger/", .wildcard], handler := .swagger },
    { method := "POST", pattern := [.lit "/upload"], handler := .upload },
    { method := "GET", pattern := [.lit "/files/", .param "filename"], handler := .serve },
    { method := "GET", pattern := [.lit "/"], handler := .serveHTML } ]

/-- Matching of a path against a chi pattern: the URL parameters on success. -/
def matchPattern : List Seg → List Char → Option (List (String × String))
  | [], [] => some []
  | [], _ :: _ => none
  | .lit s :: ps, path =>
    if s.data.isPrefixOf path then matchPattern ps (path.drop s.data.length) else none
  | .param key :: ps, path =>
    let v := path.takeWhile (fun c => c ≠ '/')
    if v = [] then none
    else (matchPattern ps (path.drop v.length)).map (fun params => (key, ⟨v⟩) :: params)
  | .wildcard :: _, path => some [("*", ⟨path⟩)]

/-- The function `chi.URLParam`: the value of a URL parameter, empty when absent. -/
def URLParam (params : List (String × String)) (key : String) : String :=
  ((params.find? (fun kv => kv.1 = key)).map Prod.snd).getD ""

/-- The router built in `main` serving one request: a path no route matches is
answered 404, a path matched only by routes of another method 405, and
otherwise the handler of the route runs.  The result is `none` for the
Swagger route, whose handler belongs to another package. -/
def serveHTTP (lowerTable : Char → Char) (store : LocalStorage) (fs : FS) (r : Request) :
    Option (Response × FS) :=
  match mainRoutes.filter (fun rt => (matchPattern rt.pattern r.Path.data).isSome) with
  | [] => some (httpError [] "404 page not found" 404, fs)
  | matching =>
    match matching.find? (fun rt => rt.method = r.Method) with
    | none => some ({ status := 405, header := [], body := .empty }, fs)
    | some rt =>
      match rt.handler with
      | .swagger => none
      | .upload => some (UploadHandler lowerTable store fs r)
      | .serve =>
        let params := (matchPattern rt.pattern r.Path.data).getD []
        some (ServeHandler lowerTable store fs r (URLParam params "filename"), fs)
      | .serveHTML => some ({ status := 200, header := setHeader [] "Content-Type" "text/html", body := .html }, fs)

/-- The path component of a URL reference that has no scheme and no authority:
the text before the first `?` or `#` (RFC 3986, section 3), not unescaped. -/
def urlPath (url : String) : String :=
  ⟨url.data.takeWhile (fun c => c ≠ '?' ∧ c ≠ '#')⟩

/-- A file system with nothing stored and `free` bytes of room. -/
def emptyFS (free : Nat) : FS := { node := fun _ => .absent, free := free }

/-- The storage `main` serves from: `storage.NewLocalStorage("./uploads")`. -/
def mainStore : LocalStorage := (NewLocalStorage "./uploads" (emptyFS 0)).1

/-- The file system when `main` starts to serve on an empty disk with `free` bytes
of room: `NewLocalStorage` has created the directory `uploads`. -/
def startFS (free : Nat) : FS := (NewLocalStorage "./uploads" (emptyFS free)).2

/-! ## Evaluation on sample inputs -/

example : generateSafeFilename "a/b\\c.txt" = "a_b_c.txt" := by decide
example : ReplaceAll "abc" "" "-" = "-a-b-c-" := by decide
example : ReplaceAll "aaaa" "aa" "b" = "bb" := by decide
example : ReplaceAll "xaaax" "aa" "b" = "xbax" := by decide
example : Clean "./uploads/a.txt" = "uploads/a.txt" := by decide
example : Clean "a/b/../../../c/./d//" = "../c/d" := by decide
example : Clean "/a/b/../../../c/./d//" = "/c/d" := by decide
example : Clean "/.." = "/" := by decide
example : Clean "abc/def/.." = "abc" := by decide
example : Clean "abc/./../def" = "def" := by decide
example : Clean "abc//./../def" = "def" := by decide
example : Clean "abc/../../././../def" = "../../def" := by decide
example : Clean "" = "." := by decide
example : Clean "a/.." = "." := by decide
example : Clean "..a/.b/...//" = "..a/.b/..." := by decide
example : Join "./uploads" "photo.JPG" = "uploads/photo.JPG" := by decide
example : Join "./uploads" ".." = "." := by decide
example : Join "" "a" = "a" := by decide
example : Ext "photo.JPG" = ".JPG" := by decide
example : Ext "a.b/c" = "" := by decide
example : ToLower id ".JPG" = ".jpg" := by decide
example : validateFile id ⟨"photo.JPG", 5120⟩ = none := by decide
example : validateFile id ⟨"photo.exe", 5120⟩ = some "file type not allowed" := by decide
example : validateFile id ⟨"photo.exe", 10485761⟩ = some "file too large (max 10MB)" := by decide

example : steps "uploads/a.txt/x" =
    [("uploads", "uploads"), ("uploads/a.txt", "a.txt"), ("uploads/a.txt/x", "x")] := by decide
example : steps "/a/b" = [("/a", "a"), ("/a/b", "b")] := by decide
example : steps "." = [] := by decide
example : mainStore = ⟨"./uploads"⟩ := by decide
example : (startFS 10).node "uploads" = .dir := by decide
example : (startFS 10).entry "uploads/a.txt" = .fails .notExist := by decide
example : (mainStore.Save (emptyFS 10) "a.txt" [1]).2 = some .notExist := by decide
example : (mainStore.Save (startFS 10) "a.txt" [1]).2 = none := by decide
example : (mainStore.Save (startFS 10) "a.txt" [1, 2, 3]).1.entry "uploads/a.txt" = .file [1, 2, 3] := by decide
example : (mainStore.Save (startFS 2) "a.txt" [1, 2, 3]).2 = some .noSpace := by decide
example : (mainStore.Save (startFS 2) "a.txt" [1, 2, 3]).1.entry "uploads/a.txt" = .file [1, 2] := by decide
example : (mainStore.Save (startFS 10) "a.txt/x" [1]).2 = some .notExist := by decide
example : (mainStore.Save (mainStore.Save (startFS 10) "a.txt" [1]).1 "a.txt/x" [1]).2 =
    some .notDirectory := by decide
example : (mainStore.Save (mainStore.Save (startFS 10) "a.txt" [1]).1 "a.txt" [7, 8]).1.entry
    "uploads/a.txt" = .file [7, 8] := by decide
example : (serveHTTP id mainStore (startFS 100) ⟨"OPTIONS", "/upload", none⟩).map (·.1.status) = some 405 := by decide
example : (serveHTTP id mainStore (startFS 100) ⟨"GET", "/files/a.txt", none⟩).map (·.1.status) = some 404 := by decide
example : (serveHTTP id mainStore (startFS 100) ⟨"GET", "/nothing", none⟩).map (·.1.status) = some 404 := by decide
example : (serveHTTP id mainStore (startFS 100) ⟨"GET", "/", none⟩).map (·.1.status) = some 200 := by decide
example : (serveHTTP id mainStore (startFS 100) ⟨"GET", "/swagger/index.html", none⟩).isNone = true := by decide
example : (serveHTTP id mainStore (startFS 100) ⟨"POST", "/upload", some ⟨some ⟨⟨"photo.JPG", 3⟩, [1,2,3]⟩, none⟩⟩).map (·.1)
   = some ⟨201, [("Access-Control-Allow-Origin", "*"), ("Access-Control-Allow-Methods", "POST, OPTIONS"), ("Access-Control-Allow-Headers", "Content-Type"), ("Content-Type", "application/json")], .jsonUpload ⟨"photo.JPG", "/files/photo.JPG", 3, "File uploaded successfully"⟩⟩ := by decide

/-! ## Lemmas on the standard-library functions -/

theorem replaceLoop_single (a b : Char) (l : List Char) :
    replaceLoop [a] [b] 0 l = l.map (fun c => if c = a then b else c) := by
  induction l with
  | nil => rfl
  | cons c s ih =>
    by_cases h : c = a
    · subst h
      simp [replaceLoop, List.isPrefixOf, ih]
    · have h2 : ¬ a = c := fun e => h e.symm
      simp [replaceLoop, List.isPrefixOf, ih, h, h2]

theorem generateSafeFilename_data (originalName : String) :
    (generateSafeFilename originalName).data = originalName.data.map sanitizeChar := by
  have h1 : ∀ s : String, (ReplaceAll s "/" "_").data = s.data.map (fun c => if c = '/' then '_' else c) := by
    intro s
    have : ReplaceAll s "/" "_" = ⟨replaceLoop ['/'] ['_'] 0 s.data⟩ := by
      unfold ReplaceAll
      rw [if_neg (by decide), if_neg (by decide)]
    rw [this, replaceLoop_single]
  have h2 : ∀ s : String, (ReplaceAll s "\\" "_").data = s.data.map (fun c => if c = '\\' then '_' else c) := by
    intro s
    have : ReplaceAll s "\\" "_" = ⟨replaceLoop ['\\'] ['_'] 0 s.data⟩ := by
      unfold ReplaceAll
      rw [if_neg (by decide), if_neg (by decide)]
    rw [this, replaceLoop_single]
  unfold generateSafeFilename
  simp only [h1, h2, List.map_map]
  apply List.map_congr_left
  intro c _
  simp only [Function.comp, sanitizeChar]
  by_cases hc : c = '/'
  · subst hc; decide
  · by_cases hd : c = '\\'
    · subst hd; decide
    · simp [hc, hd]

theorem extLoop_cases (rev acc : List Char) :
    extLoop rev acc = [] ∨
      ∃ r1 r2, rev = r1 ++ '.' :: r2 ∧ extLoop rev acc = '.' :: (r1.reverse ++ acc) ∧
        '.' ∉ r1 ∧ '/' ∉ r1 := by
  induction rev generalizing acc with
  | nil => left; rfl
  | cons c rev ih =>
    unfold extLoop
    by_cases hs : IsPathSeparator c = true
    · left; simp [hs]
    · by_cases hd : c = '.'
      · right
        subst hd
        refine ⟨[], rev, by simp, by simp [IsPathSeparator], by simp, by simp⟩
      · rcases ih (c :: acc) with h | ⟨r1, r2, h1, h2, h3, h4⟩
        · left; simp [hs, hd, h]
        · right
          refine ⟨c :: r1, r2, by simp [h1], ?_, ?_, ?_⟩
          · simp [hs, hd, h2]
          · simp only [List.mem_cons, not_or]
            exact ⟨fun e => hd e.symm, h3⟩
          · simp only [List.mem_cons, not_or]
            refine ⟨fun e => hs ?_, h4⟩
            simp [IsPathSeparator, ← e]

theorem extLoop_append (r1 r2 acc : List Char) (h1 : '.' ∉ r1) (h2 : '/' ∉ r1) :
    extLoop (r1 ++ '.' :: r2) acc = '.' :: (r1.reverse ++ acc) := by
  induction r1 generalizing acc with
  | nil => simp [extLoop, IsPathSeparator]
  | cons c r1 ih =>
    simp only [List.mem_cons, not_or] at h1 h2
    have hs : IsPathSeparator c = false := by
      simp only [IsPathSeparator, beq_eq_false_iff_ne, ne_eq]
      exact fun e => h2.1 e.symm
    have hd : ¬ c = '.' := fun e => h1.1 e.symm
    simp [extLoop, hs, hd, ih (c :: acc) h1.2 h2.2]

/-- The extension is empty, or the path ends in a dot followed by a dot-free,
separator-free suffix and the extension is that dot and suffix. -/
theorem Ext_cases (path : String) :
    Ext path = "" ∨
      ∃ pre e, path.data = pre ++ '.' :: e ∧ Ext path = ⟨'.' :: e⟩ ∧ '.' ∉ e ∧ '/' ∉ e := by
  rcases extLoop_cases path.data.reverse [] with h | ⟨r1, r2, h1, h2, h3, h4⟩
  · left
    unfold Ext
    rw [h]
  · right
    refine ⟨r2.reverse, r1.reverse, ?_, ?_, by simpa using h3, by simpa using h4⟩
    · have := congrArg List.reverse h1
      simpa using this
    · unfold Ext
      rw [h2, List.append_nil]

theorem Ext_of_append (path : String) (pre e : List Char) (h : path.data = pre ++ '.' :: e)
    (h1 : '.' ∉ e) (h2 : '/' ∉ e) : Ext path = ⟨'.' :: e⟩ := by
  unfold Ext
  have hr : path.data.reverse = e.reverse ++ '.' :: pre.reverse := by
    rw [h]; simp
  rw [hr, extLoop_append _ _ _ (by simpa using h1) (by simpa using h2)]
  simp

theorem unicodeToLower_ascii (lowerTable : Char → Char) (c : Char) (h : c.toNat < 0x80) :
    unicodeToLower lowerTable c = asciiLowerByte c := by
  unfold unicodeToLower asciiLowerByte
  have : c.toNat ≤ 0x7F := by omega
  simp [this]

/-- The function `strings.ToLower` maps `unicode.ToLower` over the runes: its two
paths agree. -/
theorem ToLower_data (lowerTable : Char → Char) (s : String) :
    (ToLower lowerTable s).data = s.data.map (unicodeToLower lowerTable) := by
  unfold ToLower
  by_cases hA : s.data.all (fun c => decide (c.toNat < 0x80)) = true
  · simp only [hA, if_true]
    have hpt : ∀ c ∈ s.data, unicodeToLower lowerTable c = asciiLowerByte c := by
      intro c hc
      apply unicodeToLower_ascii
      have := List.all_eq_true.mp hA c hc
      simpa using this
    by_cases hU : s.data.any (fun c => decide ('A'.toNat ≤ c.toNat ∧ c.toNat ≤ 'Z'.toNat)) = true
    · simp only [hU, Bool.not_true, Bool.false_eq_true, if_false]
      exact (List.map_congr_left hpt).symm
    · simp only [hU, Bool.not_false, if_true]
      have hid : ∀ c ∈ s.data, unicodeToLower lowerTable c = c := by
        intro c hc
        rw [hpt c hc]
        unfold asciiLowerByte
        have hn : ¬ ('A'.toNat ≤ c.toNat ∧ c.toNat ≤ 'Z'.toNat) := by
          intro hup
          apply hU
          rw [List.any_eq_true]
          exact ⟨c, hc, by simpa using hup⟩
        rw [if_neg hn]
      conv_lhs => rw [← List.map_id s.data]
      exact (List.map_congr_left (fun c hc => (hid c hc).symm))
  · simp [hA]

theorem allowedLoop_iff (ext : String) (l : List String) : allowedLoop ext l = true ↔ ext ∈ l := by
  induction l with
  | nil => simp [allowedLoop]
  | cons a rest ih =>
    unfold allowedLoop
    by_cases h : ext = a
    · simp [h]
    · simp [h, ih]

theorem validateFile_none_iff (lowerTable : Char → Char) (header : FileHeader) :
    validateFile lowerTable header = none ↔
      header.Size ≤ 10 * 2 ^ 20 ∧ ToLower lowerTable (Ext header.Filename) ∈ allowedExts := by
  unfold validateFile
  by_cases hs : header.Size > 10 * 2 ^ 20
  · simp only [hs, if_true]
    constructor
    · intro h; cases h
    · intro h; omega
  · simp only [hs, if_false]
    have hle : header.Size ≤ 10 * 2 ^ 20 := by omega
    by_cases ha : allowedLoop (ToLower lowerTable (Ext header.Filename)) allowedExts = true
    · have := (allowedLoop_iff _ _).mp ha
      simp only [ha, Bool.not_true, Bool.false_eq_true, if_false, true_iff]
      exact ⟨hle, this⟩
    · have hn : ¬ ToLower lowerTable (Ext header.Filename) ∈ allowedExts :=
        fun h => ha ((allowedLoop_iff _ _).mpr h)
      simp [ha, hn]

/-- A string whose lower-casing is an allowed extension has at least four
characters and no backslash. -/
theorem allowed_ext_shape (lowerTable : Char → Char) (e : String)
    (h : ToLower lowerTable e ∈ allowedExts) : 4 ≤ e.data.length ∧ '\\' ∉ e.data := by
  have hd := ToLower_data lowerTable e
  have hlen : (ToLower lowerTable e).data.length = e.data.length := by rw [hd, List.length_map]
  have hb : '\\' ∈ e.data → '\\' ∈ (ToLower lowerTable e).data := by
    intro hm
    rw [hd]
    have : unicodeToLower lowerTable '\\' = '\\' := by
      unfold unicodeToLower
      rw [if_pos (by decide), if_neg (by decide)]
    rw [← this]
    exact List.mem_map_of_mem _ hm
  simp only [allowedExts, List.mem_cons, List.mem_singleton, List.not_mem_nil, or_false] at h
  rcases h with h | h | h | h | h | h | h | h | h | h <;> rw [h] at hlen hb <;>
    exact ⟨by rw [← hlen]; decide, fun hm => absurd (hb hm) (by decide)⟩

theorem sanitizeChar_ne_slash (c : Char) : sanitizeChar c ≠ '/' ∧ sanitizeChar c ≠ '\\' := by
  unfold sanitizeChar
  by_cases h : c = '/' ∨ c = '\\'
  · rw [if_pos h]; exact ⟨by decide, by decide⟩
  · rw [if_neg h]
    rw [not_or] at h
    exact h

theorem generateSafeFilename_no_separator (originalName : String) :
    '/' ∉ (generateSafeFilename originalName).data ∧
      '\\' ∉ (generateSafeFilename originalName).data := by
  rw [generateSafeFilename_data]
  constructor
  · intro h
    obtain ⟨c, _, hc⟩ := List.mem_map.mp h
    exact (sanitizeChar_ne_slash c).1 hc
  · intro h
    obtain ⟨c, _, hc⟩ := List.mem_map.mp h
    exact (sanitizeChar_ne_slash c).2 hc

/-- An accepted filename ends in its extension, which has at least four
characters and neither separator. -/
theorem accepted_filename_shape (lowerTable : Char → Char) (header : FileHeader)
    (h : validateFile lowerTable header = none) :
    ∃ pre e, header.Filename.data = pre ++ '.' :: e ∧ Ext header.Filename = ⟨'.' :: e⟩ ∧
      '.' ∉ e ∧ '/' ∉ e ∧ '\\' ∉ e ∧ 3 ≤ e.length := by
  have hmem := ((validateFile_none_iff lowerTable header).mp h).2
  obtain ⟨hlen, hbs⟩ := allowed_ext_shape lowerTable _ hmem
  rcases Ext_cases header.Filename with he | ⟨pre, e, h1, h2, h3, h4⟩
  · rw [he] at hlen
    exact absurd hlen (by decide)
  · rw [h2] at hlen hbs
    refine ⟨pre, e, h1, h2, h3, h4, ?_, ?_⟩
    · intro hm; exact hbs (List.mem_cons_of_mem _ hm)
    · simp only [List.length_cons] at hlen
      omega

theorem map_sanitizeChar_id (e : List Char) (h1 : '/' ∉ e) (h2 : '\\' ∉ e) :
    e.map sanitizeChar = e := by
  conv_rhs => rw [← List.map_id e]
  apply List.map_congr_left
  intro c hc
  unfold sanitizeChar
  have : ¬ (c = '/' ∨ c = '\\') := by
    rintro (h | h)
    · exact h1 (h ▸ hc)
    · exact h2 (h ▸ hc)
  rw [if_neg this]; rfl

/-! ## Lemmas on `filepath.Clean` and `filepath.Join` -/

theorem cleanLoop_copy (rooted : Bool) (m out : List Char) (dotdot : Nat) (h : '/' ∉ m) :
    cleanLoop rooted true m out dotdot = (out ++ m, dotdot) := by
  induction m generalizing out with
  | nil => simp [cleanLoop]
  | cons c m ih =>
    simp only [List.mem_cons, not_or] at h
    have hs : IsPathSeparator c = false := by
      simp only [IsPathSeparator, beq_eq_false_iff_ne, ne_eq]
      exact fun e => h.1 e.symm
    rw [cleanLoop]
    simp only [hs, Bool.false_eq_true, if_false]
    rw [ih _ h.2]
    simp

theorem cleanLoop_element (rooted : Bool) (n out : List Char) (dotdot : Nat) (h : IsElement n) :
    cleanLoop rooted false n out dotdot = (addSlash rooted out ++ n, dotdot) := by
  obtain ⟨h1, h2, h3, h4⟩ := h
  match n, h1, h2, h3, h4 with
  | [c], _, h2, h3, _ =>
    have hc : c ≠ '/' := fun e => h2 (by simp [e])
    have hd : c ≠ '.' := fun e => h3 (by simp [e])
    simp [cleanLoop, IsPathSeparator, hc, hd]
  | c :: c1 :: rest, _, h2, _, h4 =>
    simp only [List.mem_cons, not_or] at h2
    have hc : c ≠ '/' := fun e => h2.1 e.symm
    have hc1 : c1 ≠ '/' := fun e => h2.2.1 e.symm
    have hcopy := cleanLoop_copy rooted (c1 :: rest) (addSlash rooted out ++ [c]) dotdot
      (by simp only [List.mem_cons, not_or]; exact ⟨h2.2.1, h2.2.2⟩)
    have hdd : ¬ (c = '.' ∧ c1 = '.' ∧ (rest = [] ∨ rest.head?.map IsPathSeparator = some true)) := by
      rintro ⟨e1, e2, e3 | e3⟩
      · exact h4 (by simp [e1, e2, e3])
      · cases rest with
        | nil => simp at e3
        | cons d rest =>
          simp only [List.head?_cons, Option.map_some', Option.some.injEq, IsPathSeparator, beq_iff_eq] at e3
          exact h2.2.2 (by simp [e3])
    rw [cleanLoop]
    simp only [IsPathSeparator, beq_iff_eq, hc, hc1, and_false, if_false, hdd]
    rw [hcopy]
    simp

/-- The loop of `filepath.Clean` is compositional at a separator: reading
`xs ++ "/" ++ ys` is reading `xs` and then reading `ys` from the state reached. -/
theorem cleanLoop_append (rooted : Bool) (ys : List Char) :
    ∀ (k : Nat) (xs : List Char), xs.length ≤ k → ∀ (mode : Bool) (out : List Char) (dotdot : Nat),
      cleanLoop rooted mode (xs ++ '/' :: ys) out dotdot =
        cleanLoop rooted false ys (cleanLoop rooted mode xs out dotdot).1
          (cleanLoop rooted mode xs out dotdot).2 := by
  have hbase : ∀ (mode : Bool) (out : List Char) (dotdot : Nat),
      cleanLoop rooted mode ('/' :: ys) out dotdot = cleanLoop rooted false ys out dotdot := by
    intro mode out dotdot
    cases mode
    · cases ys with
      | nil => simp [cleanLoop, IsPathSeparator]
      | cons c rest =>
        rw [cleanLoop]
        simp only [IsPathSeparator, beq_self_eq_true, if_true]
    · rw [cleanLoop]
      simp only [IsPathSeparator, beq_self_eq_true, if_true]
  have hnil : ∀ (mode : Bool) (out : List Char) (dotdot : Nat),
      cleanLoop rooted mode [] out dotdot = (out, dotdot) := by
    intro mode out dotdot
    cases mode <;> simp [cleanLoop]
  intro k
  induction k with
  | zero =>
    intro xs hlen mode out dotdot
    have : xs = [] := List.length_eq_zero.mp (Nat.le_zero.mp hlen)
    subst this
    rw [List.nil_append, hbase, hnil]
  | succ k ih =>
    intro xs hlen mode out dotdot
    match xs, hlen, mode with
    | [], _, mode => rw [List.nil_append, hbase, hnil]
    | c :: xs, hlen, true =>
      have hl : xs.length ≤ k := by simpa using hlen
      rw [List.cons_append, cleanLoop, cleanLoop]
      by_cases hs : IsPathSeparator c = true
      · simp only [hs, if_true]
        exact ih xs hl _ _ _
      · simp only [hs, if_false]
        exact ih xs hl _ _ _
    | [c], _, false =>
      show cleanLoop rooted false (c :: '/' :: ys) out dotdot = _
      conv_lhs => rw [cleanLoop]
      conv_rhs => rw [cleanLoop]
      by_cases hs : IsPathSeparator c = true
      · simp only [hs, if_true]
        rw [hbase, hnil]
      · simp only [hs, if_false]
        by_cases hd : c = '.'
        · simp only [hd, IsPathSeparator, beq_self_eq_true, and_self, if_true]
          simp [hbase, hnil]
        · simp only [hd, false_and, if_false]
          simp [hbase, hnil]
    | c :: c1 :: rest, hlen, false =>
      have hl1 : (c1 :: rest).length ≤ k := by simpa using hlen
      have hl2 : rest.length ≤ k := by
        simp only [List.length_cons] at hlen; omega
      have hcond : (rest ++ '/' :: ys = [] ∨ (rest ++ '/' :: ys).head?.map IsPathSeparator = some true) ↔
          (rest = [] ∨ rest.head?.map IsPathSeparator = some true) := by
        cases rest with
        | nil => simp [IsPathSeparator]
        | cons d rest => simp
      show cleanLoop rooted false (c :: c1 :: (rest ++ '/' :: ys)) out dotdot = _
      conv_lhs => rw [cleanLoop]
      conv_rhs => rw [cleanLoop]
      by_cases hs : IsPathSeparator c = true
      · simp only [hs, if_true]
        exact ih (c1 :: rest) hl1 _ _ _
      · simp only [hs, if_false]
        by_cases hd : c = '.' ∧ IsPathSeparator c1 = true
        · simp only [hd, and_self, if_true]
          exact ih (c1 :: rest) hl1 _ _ _
        · rw [if_neg hd, if_neg hd]
          simp only [hcond]
          by_cases hdd : c = '.' ∧ c1 = '.' ∧ (rest = [] ∨ rest.head?.map IsPathSeparator = some true)
          · rw [if_pos hdd, if_pos hdd]
            by_cases hb : out.length > dotdot
            · simp only [hb, if_true]
              exact ih rest hl2 _ _ _
            · simp only [hb, if_false]
              by_cases hr : (!rooted) = true
              · simp only [hr, if_true]
                exact ih rest hl2 _ _ _
              · simp only [hr, if_false]
                exact ih rest hl2 _ _ _
          · rw [if_neg hdd, if_neg hdd]
            exact ih (c1 :: rest) hl1 _ _ _

theorem cleanLoop_append_element (rooted : Bool) (n : List Char) (hn : IsElement n)
    (xs : List Char) (mode : Bool) (out : List Char) (dotdot : Nat) :
    (cleanLoop rooted mode (xs ++ '/' :: n) out dotdot).1 =
      addSlash rooted (cleanLoop rooted mode xs out dotdot).1 ++ n := by
  rw [cleanLoop_append rooted n xs.length xs (le_refl _), cleanLoop_element rooted n _ _ hn]

theorem backtrackLoop_ge (out : List Char) (dotdot w : Nat) (h : dotdot ≤ w) :
    dotdot ≤ backtrackLoop out dotdot w := by
  induction w with
  | zero => simpa [backtrackLoop] using h
  | succ w ih =>
    unfold backtrackLoop
    by_cases hc : w + 1 > dotdot ∧ ¬ IsPathSeparator (out.getD (w + 1) '/') = true
    · rw [if_pos hc]
      exact ih (by omega)
    · rw [if_neg hc]
      exact h

theorem backtrackLoop_le (out : List Char) (dotdot w : Nat) : backtrackLoop out dotdot w ≤ w := by
  induction w with
  | zero => simp [backtrackLoop]
  | succ w ih =>
    unfold backtrackLoop
    split
    · omega
    · exact le_refl _

theorem head_append_of_head (out x : List Char) (c : Char) (h : out.head? = some c) :
    (out ++ x).head? = some c := by
  cases out with
  | nil => simp at h
  | cons d out => simpa using h

theorem head_addSlash (rooted : Bool) (out : List Char) (c : Char) (h : out.head? = some c) :
    (addSlash rooted out).head? = some c := by
  unfold addSlash
  split
  · exact head_append_of_head _ _ _ h
  · exact h

theorem head_take (out : List Char) (m : Nat) (c : Char) (hm : 1 ≤ m) (h : out.head? = some c) :
    (out.take m).head? = some c := by
  cases out with
  | nil => simp at h
  | cons d out =>
    obtain ⟨m, rfl⟩ : ∃ m', m = m' + 1 := ⟨m - 1, by omega⟩
    simpa using h

/-- On a rooted path the output buffer of `filepath.Clean` always begins with the
separator. -/
theorem cleanLoop_rooted_head :
    ∀ (k : Nat) (xs : List Char), xs.length ≤ k → ∀ (mode : Bool) (out : List Char),
      out.head? = some '/' → (cleanLoop true mode xs out 1).1.head? = some '/' := by
  intro k
  induction k with
  | zero =>
    intro xs hlen mode out hout
    have : xs = [] := List.length_eq_zero.mp (Nat.le_zero.mp hlen)
    subst this
    cases mode <;> simpa [cleanLoop] using hout
  | succ k ih =>
    intro xs hlen mode out hout
    match xs, hlen, mode with
    | [], _, mode => cases mode <;> simpa [cleanLoop] using hout
    | c :: xs, hlen, true =>
      have hl : xs.length ≤ k := by simpa using hlen
      rw [cleanLoop]
      split
      · exact ih xs hl _ _ hout
      · exact ih xs hl _ _ (head_append_of_head _ _ _ hout)
    | [c], _, false =>
      rw [cleanLoop]
      split
      · simpa [cleanLoop] using hout
      · split
        · simpa [cleanLoop] using hout
        · simp only [cleanLoop]
          exact head_append_of_head _ _ _ (head_addSlash _ _ _ hout)
    | c :: c1 :: rest, hlen, false =>
      have hl1 : (c1 :: rest).length ≤ k := by simpa using hlen
      have hl2 : rest.length ≤ k := by
        simp only [List.length_cons] at hlen; omega
      rw [cleanLoop]
      split
      · exact ih _ hl1 _ _ hout
      · split
        · exact ih _ hl1 _ _ hout
        · split
          · split
            · rename_i hb
              apply ih _ hl2
              apply head_take _ _ _ _ hout
              apply backtrackLoop_ge
              omega
            · simp only [Bool.not_true, Bool.false_eq_true, if_false]
              exact ih _ hl2 _ _ hout
          · exact ih _ hl1 _ _ (head_append_of_head _ _ _ (head_addSlash _ _ _ hout))

theorem Clean_data_cons (path : String) (c : Char) (rest : List Char) (h : path.data = c :: rest) :
    Clean path =
      (let out := (if IsPathSeparator c then cleanLoop (IsPathSeparator c) false rest ['/'] 1
          else cleanLoop (IsPathSeparator c) false (c :: rest) [] 0).1
       if out.length = 0 then "." else ⟨out⟩) := by
  unfold Clean
  rw [h]

/-- Joining a directory with a single path element that is neither `.` nor `..`
gives the cleaned directory followed by the separator and the element (the
separator is omitted after the root `/`, and the directory itself when it
cleans to `.`). -/
theorem Join_element (dir name : String) (hn : IsElement name.data) :
    (Clean dir = "." ∧ Join dir name = name) ∨
    (Clean dir = "/" ∧ Join dir name = "/" ++ name) ∨
    Join dir name = Clean dir ++ "/" ++ name := by
  obtain ⟨n0, nrest, hnd⟩ := List.exists_cons_of_ne_nil hn.1
  have hn0 : IsPathSeparator n0 = false := by
    simp only [IsPathSeparator, beq_eq_false_iff_ne, ne_eq]
    intro e
    apply hn.2.1
    rw [hnd, e]
    exact List.mem_cons_self _ _
  have hname : name ≠ "" := by
    intro e
    rw [e] at hnd
    cases hnd
  cases hd : dir.data with
  | nil =>
    have hdir : dir = "" := String.ext hd
    left
    refine ⟨by rw [hdir]; rfl, ?_⟩
    unfold Join
    rw [if_neg (by simpa using hdir), if_pos hname, Clean_data_cons name n0 nrest hnd]
    simp only [hn0, Bool.false_eq_true, if_false]
    have hA : addSlash false [] = [] := rfl
    rw [← hnd, cleanLoop_element false name.data [] 0 hn]
    simp only [hA, List.nil_append]
    rw [if_neg (by rw [hnd]; simp)]
  | cons c rest =>
    have hdir : dir ≠ "" := by
      intro e
      rw [e] at hd
      cases hd
    have hjd : (dir ++ "/" ++ name).data = c :: (rest ++ '/' :: name.data) := by
      simp [String.data_append, hd]
    have hJ : Join dir name = Clean (dir ++ "/" ++ name) := by
      unfold Join
      rw [if_pos hdir]
    rw [hJ, Clean_data_cons _ c _ hjd, Clean_data_cons dir c rest hd]
    by_cases hs : IsPathSeparator c = true
    · simp only [hs, if_true]
      rw [cleanLoop_append_element true _ hn rest]
      have hhead := cleanLoop_rooted_head rest.length rest (le_refl _) false ['/'] rfl
      generalize (cleanLoop true false rest ['/'] 1).1 = D at hhead ⊢
      match D, hhead with
      | [d], hhead =>
        right; left
        simp only [List.head?_cons, Option.some.injEq] at hhead
        subst hhead
        refine ⟨by simp, ?_⟩
        simp [addSlash]
        apply String.ext
        simp [String.data_append]
      | d :: d1 :: D, hhead =>
        right; right
        simp [addSlash]
        apply String.ext
        simp [String.data_append]
    · have := cleanLoop_append_element false _ hn (c :: rest) false [] 0
      rw [List.cons_append] at this
      simp only [Bool.not_eq_true] at hs
      simp only [hs, Bool.false_eq_true, if_false]
      rw [this]
      generalize (cleanLoop false false (c :: rest) [] 0).1 = D
      match D with
      | [] =>
        left
        refine ⟨by simp, ?_⟩
        simp [addSlash, hnd]
        apply String.ext
        simp [hnd]
      | d :: D =>
        right; right
        simp [addSlash]
        apply String.ext
        simp [String.data_append]

theorem cleanLoop_dotdot (rooted : Bool) (out : List Char) (dotdot : Nat) :
    (cleanLoop rooted false ['.', '.'] out dotdot).1 =
      if out.length > dotdot then out.take (backtrackLoop out dotdot (out.length - 1))
      else if !rooted then (if out.length > 0 then out ++ ['/'] else out) ++ ['.', '.']
      else out := by
  rw [cleanLoop]
  simp only [IsPathSeparator]
  rw [if_neg (by decide), if_neg (by decide), if_pos (by simp)]
  split
  · simp [cleanLoop]
  · split <;> simp [cleanLoop]

theorem string_ne_cleaned (A P : List Char) (h : A ≠ P) (hdot : P = [] → A ≠ ['.']) :
    (⟨A⟩ : String) ≠ (if P.length = 0 then "." else ⟨P⟩) := by
  split
  · rename_i h0
    intro e
    exact hdot (List.length_eq_zero.mp h0) (congrArg String.data e)
  · intro e
    exact h (congrArg String.data e)

theorem length_addSlash (rooted : Bool) (D : List Char) : D.length ≤ (addSlash rooted D).length := by
  unfold addSlash
  split <;> simp

theorem Join_empty_element (name : String) (hn : IsElement name.data) : Join "" name = name := by
  have hname : name ≠ "" := fun e => hn.1 (by rw [e])
  obtain ⟨n0, nrest, hnd⟩ := List.exists_cons_of_ne_nil hn.1
  have hn0 : IsPathSeparator n0 = false := by
    simp only [IsPathSeparator, beq_eq_false_iff_ne, ne_eq]
    intro e
    apply hn.2.1
    rw [hnd, e]
    exact List.mem_cons_self _ _
  unfold Join
  rw [if_neg (by simp), if_pos hname, Clean_data_cons name n0 nrest hnd]
  simp only [hn0, Bool.false_eq_true, if_false]
  have hA : addSlash false [] = [] := rfl
  rw [← hnd, cleanLoop_element false name.data [] 0 hn]
  simp only [hA, List.nil_append]
  rw [if_neg (by rw [hnd]; simp)]

/-- Joining a directory with a single path element that is neither `.` nor `..`
never gives the parent of the directory, `Join dir ".."`. -/
theorem Join_element_ne_parent (dir name : String) (hn : IsElement name.data) :
    Join dir name ≠ Join dir ".." := by
  have hlenn : 1 ≤ name.data.length := by
    cases h : name.data with
    | nil => exact absurd h hn.1
    | cons c r => simp
  cases hd : dir.data with
  | nil =>
    have hdir : dir = "" := String.ext hd
    rw [hdir, Join_empty_element name hn]
    have h2 : Join "" ".." = ".." := by decide
    rw [h2]
    exact fun e => hn.2.2.2 (by rw [e])
  | cons c rest =>
    have hdir : dir ≠ "" := by
      intro e
      rw [e] at hd
      cases hd
    have hjd : ∀ x : String, (dir ++ "/" ++ x).data = c :: (rest ++ '/' :: x.data) := by
      intro x
      simp [String.data_append, hd]
    have hJ : ∀ x : String, Join dir x = Clean (dir ++ "/" ++ x) := by
      intro x
      unfold Join
      rw [if_pos hdir]
    rw [hJ, hJ, Clean_data_cons _ c _ (hjd name), Clean_data_cons _ c _ (hjd "..")]
    have hdots : ("..".data : List Char) = ['.', '.'] := rfl
    rw [hdots]
    by_cases hs : IsPathSeparator c = true
    · simp only [hs, if_true]
      rw [cleanLoop_append_element true _ hn rest,
        cleanLoop_append true ['.', '.'] rest.length rest (le_refl _), cleanLoop_dotdot]
      have hhead := cleanLoop_rooted_head rest.length rest (le_refl _) false ['/'] rfl
      generalize cleanLoop true false rest ['/'] 1 = st at hhead ⊢
      obtain ⟨D, dd⟩ := st
      simp only at hhead ⊢
      have hD : 1 ≤ D.length := by
        cases D with
        | nil => simp at hhead
        | cons d D => simp
      have hA := length_addSlash true D
      have hlen1 : D.length < (addSlash true D ++ name.data).length := by
        rw [List.length_append]; omega
      rw [if_neg (by omega)]
      apply string_ne_cleaned
      · intro e
        have hl := congrArg List.length e
        by_cases hb : D.length > dd
        · rw [if_pos hb, List.length_take] at hl
          omega
        · rw [if_neg hb, if_neg (by decide)] at hl
          omega
      · intro _ e
        have hl := congrArg List.length e
        simp only [List.length_singleton] at hl
        omega
    · simp only [Bool.not_eq_true] at hs
      simp only [hs, Bool.false_eq_true, if_false]
      have h1 := cleanLoop_append_element false _ hn (c :: rest) false [] 0
      have h2 := cleanLoop_append false ['.', '.'] (c :: rest).length (c :: rest) (le_refl _) false [] 0
      rw [List.cons_append] at h1 h2
      rw [h1, h2, cleanLoop_dotdot]
      generalize cleanLoop false false (c :: rest) [] 0 = st
      obtain ⟨D, dd⟩ := st
      simp only
      have hA := length_addSlash false D
      have hlen1 : D.length < (addSlash false D ++ name.data).length := by
        rw [List.length_append]; omega
      rw [if_neg (by omega)]
      have hpre : addSlash false D = (if D.length > 0 then D ++ ['/'] else D) := by
        unfold addSlash
        by_cases h0 : D.length = 0
        · simp [h0]
        · have : D.length > 0 := by omega
          simp [h0, this]
      by_cases hb : D.length > dd
      · rw [if_pos hb]
        apply string_ne_cleaned
        · intro e
          have hl := congrArg List.length e
          rw [List.length_take] at hl
          omega
        · intro _ e
          have hl := congrArg List.length e
          simp only [List.length_singleton, List.length_append] at hl
          omega
      · rw [if_neg hb]
        simp only [Bool.not_false, if_true]
        apply string_ne_cleaned
        · rw [hpre]
          intro e
          exact hn.2.2.2 (List.append_cancel_left e)
        · intro e
          simp at e

/-! ## Validation and sanitisation -/

/-- C1: `validateFile` equals the reference of the specification for every
declared size and original filename: above 10 MiB it fails with
"file too large (max 10MB)" whatever the filename, otherwise it fails with
"file type not allowed" unless the lower-cased extension is in the list, and
otherwise it succeeds.  Hence a file is accepted exactly when its size is at
most 10 MiB and its extension equals an entry of the list after lower-casing
both. -/
theorem validateFile_eq_reference (lowerTable : Char → Char) (size : Int) (filename : String) :
    validateFile lowerTable ⟨filename, size⟩ = validateFileSpec lowerTable size filename ∧
    (validateFile lowerTable ⟨filename, size⟩ = none ↔
      size ≤ 10 * 2 ^ 20 ∧
        ∃ a ∈ allowedExts, ToLower lowerTable (Ext filename) = ToLower lowerTable a) := by
  have hiff := validateFile_none_iff lowerTable ⟨filename, size⟩
  have hlow : ∀ a ∈ allowedExts, ToLower lowerTable a = a := by
    intro a ha
    simp only [allowedExts, List.mem_cons, List.mem_singleton, List.not_mem_nil, or_false] at ha
    rcases ha with h | h | h | h | h | h | h | h | h | h <;> rw [h] <;> rfl
  constructor
  · unfold validateFileSpec
    by_cases hs : size > 10485760
    · rw [if_pos hs]
      unfold validateFile
      rw [if_pos (by simpa using hs)]
    · rw [if_neg hs]
      by_cases hm : ToLower lowerTable (Ext filename) ∈
          [".jpg", ".jpeg", ".png", ".gif", ".pdf", ".txt", ".doc", ".docx", ".xls", ".xlsx"]
      · rw [if_pos hm]
        exact hiff.mpr ⟨by simp only [gt_iff_lt, not_lt] at hs; simpa using hs, hm⟩
      · rw [if_neg hm]
        unfold validateFile
        rw [if_neg (by simpa using hs)]
        have hl : allowedLoop (ToLower lowerTable (Ext filename)) allowedExts = false := by
          rw [Bool.eq_false_iff]
          exact fun h => hm ((allowedLoop_iff _ _).mp h)
        simp only [hl, Bool.not_false, if_true]
  · rw [hiff]
    constructor
    · rintro ⟨h1, h2⟩
      exact ⟨h1, _, h2, (hlow _ h2).symm⟩
    · rintro ⟨h1, a, ha, h2⟩
      refine ⟨h1, ?_⟩
      rw [h2, hlow a ha]
      exact ha

/-- C2: `generateSafeFilename` returns the original name with every `/` and every
`\` replaced by `_` and every other character unchanged in place; the length
is the same and the result has no `/` and no `\`. -/
theorem generateSafeFilename_replaces_separators (originalName : String) :
    generateSafeFilename originalName =
        ⟨originalName.data.map (fun c => if c = '/' ∨ c = '\\' then '_' else c)⟩ ∧
    (generateSafeFilename originalName).length = originalName.length ∧
    '/' ∉ (generateSafeFilename originalName).data ∧
    '\\' ∉ (generateSafeFilename originalName).data := by
  have hd := generateSafeFilename_data originalName
  refine ⟨?_, ?_, generateSafeFilename_no_separator originalName⟩
  · apply String.ext
    rw [hd]
    rfl
  · show (generateSafeFilename originalName).data.length = originalName.data.length
    rw [hd, List.length_map]

theorem accepted_name_isElement (lowerTable : Char → Char) (header : FileHeader)
    (h : validateFile lowerTable header = none) :
    IsElement (generateSafeFilename header.Filename).data := by
  obtain ⟨pre, e, h1, _, _, _, _, h6⟩ := accepted_filename_shape lowerTable header h
  have hlen : 4 ≤ (generateSafeFilename header.Filename).data.length := by
    rw [generateSafeFilename_data, List.length_map, h1]
    simp only [List.length_append, List.length_cons]
    omega
  refine ⟨?_, (generateSafeFilename_no_separator _).1, ?_, ?_⟩ <;>
    · intro e
      rw [e] at hlen
      simp at hlen

/-- C9: for every filename that passes `validateFile`, the name handed to `Save` is
a single safe path element: it is not empty, has no `/` and no `\`, and is
neither `.` nor `..`.  So for every storage root the file is written to the
cleaned root followed by a separator and that name, which is never the root
itself nor its parent. -/
theorem accepted_name_is_safe_component (lowerTable : Char → Char) (header : FileHeader)
    (dir : String) (h : validateFile lowerTable header = none) :
    generateSafeFilename header.Filename ≠ "" ∧
    '/' ∉ (generateSafeFilename header.Filename).data ∧
    '\\' ∉ (generateSafeFilename header.Filename).data ∧
    generateSafeFilename header.Filename ≠ "." ∧
    generateSafeFilename header.Filename ≠ ".." ∧
    ((Clean dir = "." ∧
        Join dir (generateSafeFilename header.Filename) = generateSafeFilename header.Filename) ∨
      (Clean dir = "/" ∧
        Join dir (generateSafeFilename header.Filename) =
          "/" ++ generateSafeFilename header.Filename) ∨
      Join dir (generateSafeFilename header.Filename) =
        Clean dir ++ "/" ++ generateSafeFilename header.Filename) ∧
    Join dir (generateSafeFilename header.Filename) ≠ Clean dir ∧
    Join dir (generateSafeFilename header.Filename) ≠ Join dir ".." := by
  have hel := accepted_name_isElement lowerTable header h
  have hj := Join_element dir _ hel
  obtain ⟨e1, e2, e3, e4⟩ := hel
  have hne : generateSafeFilename header.Filename ≠ "" := fun e => e1 (by rw [e])
  have hdot : generateSafeFilename header.Filename ≠ "." := fun e => e3 (by rw [e])
  have hdd : generateSafeFilename header.Filename ≠ ".." := fun e => e4 (by rw [e])
  refine ⟨hne, e2, (generateSafeFilename_no_separator _).2, hdot, hdd, hj, ?_,
    Join_element_ne_parent dir _ ⟨e1, e2, e3, e4⟩⟩
  rcases hj with ⟨c1, c2⟩ | ⟨c1, c2⟩ | c
  · rw [c1, c2]
    exact hdot
  · rw [c1, c2]
    intro e
    have := congrArg String.data e
    simp only [String.data_append] at this
    exact e1 (by simpa using this)
  · rw [c]
    intro e
    have hl := congrArg (fun s => s.data.length) e
    simp only [String.data_append, List.length_append] at hl
    have h1 : ("/" : String).data.length = 1 := rfl
    rw [h1] at hl
    omega

theorem accepted_name_is_safe_component_witness :
    validateFile id ⟨"../../etc/notes.TXT", 12⟩ = none ∧
    generateSafeFilename "../../etc/notes.TXT" ≠ ".." ∧
    Join "./uploads" (generateSafeFilename "../../etc/notes.TXT") ≠ Clean "./uploads" :=
  ⟨by decide,
   (accepted_name_is_safe_component id ⟨"../../etc/notes.TXT", 12⟩ "./uploads" (by decide)).2.2.2.2.1,
   (accepted_name_is_safe_component id ⟨"../../etc/notes.TXT", 12⟩ "./uploads" (by decide)).2.2.2.2.2.2.1⟩

/-- Sanitising an accepted filename leaves its extension as it is. -/
theorem Ext_generateSafeFilename (lowerTable : Char → Char) (header : FileHeader)
    (h : validateFile lowerTable header = none) :
    Ext (generateSafeFilename header.Filename) = Ext header.Filename := by
  obtain ⟨pre, e, h1, h2, h3, h4, h5, _⟩ := accepted_filename_shape lowerTable header h
  rw [h2]
  apply Ext_of_append _ (pre.map sanitizeChar) e _ h3 h4
  rw [generateSafeFilename_data, h1, List.map_append, List.map_cons, map_sanitizeChar_id e h4 h5]
  rfl

/-- C10: for every filename that passes `validateFile`, sanitisation keeps the
extension: the extension of the safe name is the extension of the original,
it is still an allowed one, and `ServeHandler` derives the `Content-Type` from
the same extension. -/
theorem sanitisation_keeps_extension (lowerTable : Char → Char) (header : FileHeader)
    (h : validateFile lowerTable header = none) :
    Ext (generateSafeFilename header.Filename) = Ext header.Filename ∧
    ToLower lowerTable (Ext (generateSafeFilename header.Filename)) ∈ allowedExts ∧
    serveContentType lowerTable (generateSafeFilename header.Filename) =
      serveContentType lowerTable header.Filename := by
  have hext := Ext_generateSafeFilename lowerTable header h
  refine ⟨hext, ?_, ?_⟩
  · rw [hext]
    exact ((validateFile_none_iff lowerTable header).mp h).2
  · unfold serveContentType
    rw [hext]

theorem sanitisation_keeps_extension_witness :
    validateFile id ⟨"my/holiday\\photo.JPG", 5120⟩ = none ∧
    Ext (generateSafeFilename "my/holiday\\photo.JPG") = Ext "my/holiday\\photo.JPG" :=
  ⟨by decide, (sanitisation_keeps_extension id ⟨"my/holiday\\photo.JPG", 5120⟩ (by decide)).1⟩

/-! ## The upload handler -/

/-- The reply and the file system left by `UploadHandler` for an accepted and saved
upload. -/
theorem UploadHandler_accepts (lowerTable : Char → Char) (store : LocalStorage) (fs : FS)
    (r : Request) (form : MultipartForm) (f : FormFile)
    (hm : r.Method ≠ "OPTIONS") (hform : r.multipart = some form)
    (hf : form.file = some f ∨ (form.file = none ∧ form.image = some f))
    (hv : validateFile lowerTable f.header = none)
    (hs : (store.Save fs (generateSafeFilename f.header.Filename) f.content).2 = none) :
    UploadHandler lowerTable store fs r =
      ({ status := 201
         header := [("Access-Control-Allow-Origin", "*"),
           ("Access-Control-Allow-Methods", "POST, OPTIONS"),
           ("Access-Control-Allow-Headers", "Content-Type"),
           ("Content-Type", "application/json")]
         body := .jsonUpload
           { Filename := generateSafeFilename f.header.Filename
             URL := "/files/" ++ generateSafeFilename f.header.Filename
             Size := f.header.Size
             Message := "File uploaded successfully" } },
       (store.Save fs (generateSafeFilename f.header.Filename) f.content).1) := by
  have hsel : formFile form = some f := by
    unfold formFile
    rcases hf with h | ⟨h1, h2⟩
    · rw [h]
    · rw [h1]; exact h2
  unfold UploadHandler
  simp only [if_neg hm, hform, hsel, hv]
  rcases hS : store.Save fs (generateSafeFilename f.header.Filename) f.content with ⟨fs1, err⟩
  rw [hS] at hs
  simp only at hs
  subst hs
  rfl

/-- C4: a request (other than the `OPTIONS` short cut) whose form carries a file
under `file`, or else under `image`, that passes `validateFile` and whose
`Save` succeeds, is answered with status 201 and the JSON body with the safe
filename, the URL `/files/` followed by it, the declared size of the file
header and the message "File uploaded successfully". -/
theorem UploadHandler_success (lowerTable : Char → Char) (store : LocalStorage) (fs : FS)
    (r : Request) (form : MultipartForm) (f : FormFile)
    (hm : r.Method ≠ "OPTIONS") (hform : r.multipart = some form)
    (hf : form.file = some f ∨ (form.file = none ∧ form.image = some f))
    (hv : validateFile lowerTable f.header = none)
    (hs : (store.Save fs (generateSafeFilename f.header.Filename) f.content).2 = none) :
    (UploadHandler lowerTable store fs r).1.status = 201 ∧
    (UploadHandler lowerTable store fs r).1.body = .jsonUpload
      { Filename := generateSafeFilename f.header.Filename
        URL := "/files/" ++ generateSafeFilename f.header.Filename
        Size := f.header.Size
        Message := "File uploaded successfully" } ∧
    getHeader (UploadHandler lowerTable store fs r).1.header "Content-Type" = some "application/json" ∧
    (UploadHandler lowerTable store fs r).2 =
      (store.Save fs (generateSafeFilename f.header.Filename) f.content).1 := by
  rw [UploadHandler_accepts lowerTable store fs r form f hm hform hf hv hs]
  exact ⟨rfl, rfl, rfl, rfl⟩

theorem UploadHandler_success_witness :
    (UploadHandler id ⟨"./uploads"⟩ (startFS 10000)
      ⟨"POST", "/upload", some ⟨none, some ⟨⟨"photo.JPG", 3⟩, [1, 2, 3]⟩⟩⟩).1.body =
      .jsonUpload ⟨"photo.JPG", "/files/photo.JPG", 3, "File uploaded successfully"⟩ :=
  (UploadHandler_success id ⟨"./uploads"⟩ (startFS 10000)
    ⟨"POST", "/upload", some ⟨none, some ⟨⟨"photo.JPG", 3⟩, [1, 2, 3]⟩⟩⟩
    ⟨none, some ⟨⟨"photo.JPG", 3⟩, [1, 2, 3]⟩⟩ ⟨⟨"photo.JPG", 3⟩, [1, 2, 3]⟩
    (by decide) rfl (Or.inr ⟨rfl, rfl⟩) (by decide) (by decide)).2.1

/-- Evaluation of `UploadHandler` on a request whose multipart body cannot be
parsed (claim C6): the reply has status 400 but is written with `http.Error`,
so its body is the plain text "Failed to parse form" and not a JSON
`ErrorResponse`, while every other failure goes through `sendErrorResponse`. -/
theorem UploadHandler_parse_failure_is_plain_text (lowerTable : Char → Char)
    (store : LocalStorage) (fs : FS) :
    (UploadHandler lowerTable store fs ⟨"POST", "/upload", none⟩).1.status = 400 ∧
    (UploadHandler lowerTable store fs ⟨"POST", "/upload", none⟩).1.body =
      .text "Failed to parse form\n" ∧
    getHeader (UploadHandler lowerTable store fs ⟨"POST", "/upload", none⟩).1.header "Content-Type" =
      some "text/plain; charset=utf-8" ∧
    ∀ e : ErrorResponse,
      (UploadHandler lowerTable store fs ⟨"POST", "/upload", none⟩).1.body ≠ .jsonError e := by
  refine ⟨rfl, rfl, rfl, ?_⟩
  intro e h
  cases h

/-- The failures of `UploadHandler` after the form is parsed are JSON replies: a
missing file and a rejected file give 400, a failed `Save` gives 500 with the
message "Failed to save file". -/
theorem UploadHandler_failures_after_parse (lowerTable : Char → Char) (store : LocalStorage)
    (fs : FS) (r : Request) (form : MultipartForm)
    (hm : r.Method ≠ "OPTIONS") (hform : r.multipart = some form)
    (hfail : (UploadHandler lowerTable store fs r).1.status ≠ 201) :
    (∃ msg, (UploadHandler lowerTable store fs r).1.status = 400 ∧
        (UploadHandler lowerTable store fs r).1.body = .jsonError ⟨msg⟩) ∨
    ((UploadHandler lowerTable store fs r).1.status = 500 ∧
        (UploadHandler lowerTable store fs r).1.body = .jsonError ⟨"Failed to save file"⟩) := by
  revert hfail
  unfold UploadHandler
  simp only [if_neg hm, hform]
  rcases hsel : formFile form with _ | f
  · intro _
    left; exact ⟨_, rfl, rfl⟩
  · simp only
    rcases hv : validateFile lowerTable f.header with _ | msg
    · simp only
      rcases hS : store.Save fs (generateSafeFilename f.header.Filename) f.content with ⟨fs1, _ | err⟩
      · intro hfail
        exact absurd rfl hfail
      · intro _
        right; exact ⟨rfl, rfl⟩
    · intro _
      left; exact ⟨_, rfl, rfl⟩

/-! ## The storage -/

theorem stepsLoop_length (rest pre comp : List Char) :
    ∀ a ∈ stepsLoop rest pre comp, pre.length ≤ a.1.data.length := by
  induction rest generalizing pre comp with
  | nil =>
    intro a ha
    unfold stepsLoop at ha
    split at ha
    · cases ha
    · simp only [List.mem_singleton] at ha
      rw [ha]
      simp
  | cons c rest ih =>
    intro a ha
    unfold stepsLoop at ha
    split at ha
    · split at ha
      · have := ih _ _ a ha
        simp only [List.length_cons] at this
        omega
      · rcases List.mem_cons.mp ha with h | h
        · rw [h]; simp
        · have := ih _ _ a h
          simp only [List.length_cons] at this
          omega
    · have := ih _ _ a ha
      simp only [List.length_cons] at this
      omega

/-- The paths of the steps of a resolution grow strictly. -/
theorem stepsLoop_pairwise (rest pre comp : List Char) :
    List.Pairwise (fun a b : String × String => a.1.data.length < b.1.data.length)
      (stepsLoop rest pre comp) := by
  induction rest generalizing pre comp with
  | nil =>
    unfold stepsLoop
    split <;> simp
  | cons c rest ih =>
    unfold stepsLoop
    split
    · split
      · exact ih _ _
      · rw [List.pairwise_cons]
        refine ⟨?_, ih _ _⟩
        intro b hb
        have := stepsLoop_length rest (c :: pre) [] b hb
        simp only [List.length_cons] at this
        simp only [List.length_reverse]
        omega
    · exact ih _ _

theorem steps_last_distinct (path q comp : String) (h : (steps path).getLast? = some (q, comp)) :
    ∀ a ∈ (steps path).dropLast, a.1 ≠ q := by
  have hsplit : (steps path).dropLast ++ [(q, comp)] = steps path :=
    List.dropLast_append_getLast? _ h
  have hp := stepsLoop_pairwise path.data [] []
  change List.Pairwise _ (steps path) at hp
  rw [← hsplit, List.pairwise_append] at hp
  intro a ha e
  have := hp.2.2 a ha (q, comp) (List.mem_singleton.mpr rfl)
  rw [e] at this
  exact absurd this (lt_irrefl _)

theorem walk_set (fs : FS) (q : String) (n : Node) (free : Nat) (A : List (String × String))
    (h : ∀ a ∈ A, a.1 ≠ q) : walk (fs.set q n free) A = walk fs A := by
  induction A with
  | nil => rfl
  | cons a A ih =>
    obtain ⟨p, comp⟩ := a
    have hp : p ≠ q := h (p, comp) (List.mem_cons_self _ _)
    have hnode : (fs.set q n free).node p = fs.node p := by
      simp [FS.set, hp]
    unfold walk
    rw [hnode, ih (fun a ha => h a (List.mem_cons_of_mem _ ha))]

/-- What a successful `os.Create` has checked and done. -/
theorem Create_ok (fs fs1 : FS) (path out : String) (h : Create fs path = (fs1, .ok out)) :
    path ≠ "" ∧ ¬ pathMax ≤ byteLen path.data ∧ walk fs (steps path).dropLast = none ∧
    (∃ comp, (steps path).getLast? = some (out, comp) ∧ ¬ nameMax < byteLen comp.data) ∧
    ∃ free, fs1 = fs.set out (.file []) free := by
  unfold Create at h
  by_cases h1 : path = ""
  · rw [if_pos h1] at h; cases h
  · rw [if_neg h1] at h
    by_cases h2 : pathMax ≤ byteLen path.data
    · rw [if_pos h2] at h; cases h
    · rw [if_neg h2] at h
      cases h3 : walk fs (steps path).dropLast with
      | some err => rw [h3] at h; cases h
      | none =>
        rw [h3] at h
        cases h4 : (steps path).getLast? with
        | none => rw [h4] at h; cases h
        | some pc =>
          obtain ⟨p, comp⟩ := pc
          rw [h4] at h
          simp only at h
          by_cases h5 : nameMax < byteLen comp.data
          · rw [if_pos h5] at h; cases h
          · rw [if_neg h5] at h
            cases h6 : fs.node p with
            | absent =>
              rw [h6] at h
              simp only [Prod.mk.injEq, Except.ok.injEq] at h
              obtain ⟨e1, e2⟩ := h
              subst e2
              exact ⟨h1, h2, rfl, ⟨comp, rfl, h5⟩, _, e1.symm⟩
            | file old =>
              rw [h6] at h
              simp only [Prod.mk.injEq, Except.ok.injEq] at h
              obtain ⟨e1, e2⟩ := h
              subst e2
              exact ⟨h1, h2, rfl, ⟨comp, rfl, h5⟩, _, e1.symm⟩
            | dir => rw [h6] at h; cases h
            | denied => rw [h6] at h; cases h

/-- After a file is stored under the last step of a path whose directories all
exist, the path resolves to that file. -/
theorem entry_set_last (fs : FS) (path out : String) (r : List Nat) (free : Nat)
    (h1 : path ≠ "") (h2 : ¬ pathMax ≤ byteLen path.data)
    (h3 : walk fs (steps path).dropLast = none)
    (h4 : ∃ comp, (steps path).getLast? = some (out, comp) ∧ ¬ nameMax < byteLen comp.data) :
    (fs.set out (.file r) free).entry path = .file r := by
  obtain ⟨comp, h4, h5⟩ := h4
  unfold FS.entry
  rw [if_neg h1, if_neg h2, walk_set fs out _ _ _ (steps_last_distinct path out comp h4), h3, h4]
  simp only
  rw [if_neg h5]
  simp [FS.set]

theorem walk_set_last (fs : FS) (path out comp : String) (n : Node) (free : Nat)
    (h4 : (steps path).getLast? = some (out, comp)) :
    walk (fs.set out n free) (steps path).dropLast = walk fs (steps path).dropLast :=
  walk_set fs out _ _ _ (steps_last_distinct path out comp h4)

theorem Load_of_absent (store : LocalStorage) (fs : FS) (name : String)
    (hE : fs.entry (Join store.Dir name) = .fails .notExist) :
    store.Load fs name = ("", some .notExist) := by
  simp [LocalStorage.Load, Stat, hE, IsNotExist]

theorem Load_of_present (store : LocalStorage) (fs : FS) (name : String)
    (hE : fs.entry (Join store.Dir name) ≠ .fails .notExist) :
    store.Load fs name = (Join store.Dir name, none) := by
  cases h : fs.entry (Join store.Dir name) with
  | file data => simp [LocalStorage.Load, Stat, h, IsNotExist]
  | dir => simp [LocalStorage.Load, Stat, h, IsNotExist]
  | fails err =>
    have hne : err ≠ .notExist := fun e => hE (by rw [h, e])
    simp [LocalStorage.Load, Stat, h, IsNotExist, hne]

/-- A successful `Save` leaves exactly the saved bytes at the joined path, whatever
was there before, and `Load` of the same name then returns that path. -/
theorem Save_then_Load (store : LocalStorage) (fs : FS) (name : String) (r : List Nat)
    (h : (store.Save fs name r).2 = none) :
    (store.Save fs name r).1.entry (Join store.Dir name) = .file r ∧
    store.Load (store.Save fs name r).1 name = (Join store.Dir name, none) := by
  have hent : (store.Save fs name r).1.entry (Join store.Dir name) = .file r := by
    rcases hC : Create fs (Join store.Dir name) with ⟨fs1, err | out⟩
    · simp only [LocalStorage.Save, hC] at h
      cases h
    · obtain ⟨h1, h2, h3, ⟨comp, h4, h5⟩, free, hfs1⟩ := Create_ok fs fs1 _ out hC
      have hw : walk fs1 (steps (Join store.Dir name)).dropLast = none := by
        rw [hfs1, walk_set_last fs _ out comp _ _ h4, h3]
      simp only [LocalStorage.Save, hC] at h ⊢
      unfold Copy at h ⊢
      by_cases hl : r.length ≤ fs1.free
      · simp only [if_pos hl]
        exact entry_set_last fs1 _ out r _ h1 h2 hw ⟨comp, h4, h5⟩
      · simp only [if_neg hl] at h
        cases h
  refine ⟨hent, ?_⟩
  apply Load_of_present
  rw [hent]
  intro hc
  cases hc

theorem Stat_eq_notExist_iff (fs : FS) (path : String) :
    Stat fs path = some .notExist ↔ fs.entry path = .fails .notExist := by
  unfold Stat
  cases fs.entry path <;> simp

/-- C7, as stated, fails: with `a.txt` stored as a regular file under `./uploads`,
nothing exists at `uploads/a.txt/x`, yet `Load` of the name `a.txt/x` returns
that path and no error, because `os.Stat` fails with ENOTDIR, for which
`os.IsNotExist` does not hold. -/
theorem Load_no_error_under_regular_file :
    pathExists (mainStore.Save (startFS 100) "a.txt" [104, 105]).1
      (Join mainStore.Dir "a.txt/x") = false ∧
    Stat (mainStore.Save (startFS 100) "a.txt" [104, 105]).1 (Join mainStore.Dir "a.txt/x") =
      some .notDirectory ∧
    mainStore.Load (mainStore.Save (startFS 100) "a.txt" [104, 105]).1 "a.txt/x" =
      ("uploads/a.txt/x", none) ∧
    ¬ ((mainStore.Load (mainStore.Save (startFS 100) "a.txt" [104, 105]).1 "a.txt/x").2 ≠ none ↔
        pathExists (mainStore.Save (startFS 100) "a.txt" [104, 105]).1
          (Join mainStore.Dir "a.txt/x") = false) := by
  refine ⟨by decide, by decide, by decide, by decide⟩

/-- C7, as amended: `Load` fails, with the not-exist error, exactly when `os.Stat`
reports that the root directory joined with the name does not exist, and
`ServeHandler` then answers 404 "File not found"; in every other case, also
when `os.Stat` fails with another error, `Load` returns that joined path and
no error.  So `Load` fails only where nothing exists, it never fails where a
file or directory exists, and where nothing exists it still returns no error
exactly when `os.Stat` fails with an error other than not-exist. -/
theorem Load_fails_iff_stat_not_exist (lowerTable : Char → Char) (store : LocalStorage) (fs : FS)
    (name : String) (r : Request) :
    ((store.Load fs name).2 ≠ none ↔ Stat fs (Join store.Dir name) = some .notExist) ∧
    (Stat fs (Join store.Dir name) = some .notExist →
      store.Load fs name = ("", some .notExist) ∧
      (name ≠ "" →
        (ServeHandler lowerTable store fs r name).status = 404 ∧
        (ServeHandler lowerTable store fs r name).body = .text "File not found\n")) ∧
    (Stat fs (Join store.Dir name) ≠ some .notExist →
      store.Load fs name = (Join store.Dir name, none)) ∧
    ((store.Load fs name).2 ≠ none → pathExists fs (Join store.Dir name) = false) ∧
    (pathExists fs (Join store.Dir name) = true →
      store.Load fs name = (Join store.Dir name, none)) ∧
    ((pathExists fs (Join store.Dir name) = false ∧ (store.Load fs name).2 = none) ↔
      ∃ err, Stat fs (Join store.Dir name) = some err ∧ err ≠ .notExist) := by
  have hp : Stat fs (Join store.Dir name) ≠ some .notExist →
      store.Load fs name = (Join store.Dir name, none) := by
    intro h
    exact Load_of_present store fs name (fun e => h ((Stat_eq_notExist_iff _ _).mpr e))
  have ha : Stat fs (Join store.Dir name) = some .notExist →
      store.Load fs name = ("", some .notExist) := by
    intro h
    exact Load_of_absent store fs name ((Stat_eq_notExist_iff _ _).mp h)
  have hiff : (store.Load fs name).2 ≠ none ↔ Stat fs (Join store.Dir name) = some .notExist := by
    by_cases hE : Stat fs (Join store.Dir name) = some .notExist
    · simp [ha hE, hE]
    · simp [hp hE, hE]
  refine ⟨hiff, ?_, hp, ?_, ?_, ?_⟩
  · intro hE
    refine ⟨ha hE, fun hn => ?_⟩
    unfold ServeHandler
    rw [if_neg hn, ha hE]
    exact ⟨rfl, rfl⟩
  · intro h
    have hE := (Stat_eq_notExist_iff _ _).mp (hiff.mp h)
    unfold pathExists
    rw [hE]
  · intro h
    apply hp
    intro hE
    have hE' := (Stat_eq_notExist_iff _ _).mp hE
    unfold pathExists at h
    rw [hE'] at h
    cases h
  · constructor
    · rintro ⟨h1, h2⟩
      have hne : Stat fs (Join store.Dir name) ≠ some .notExist := by
        intro hE
        exact (hiff.mpr hE) h2
      unfold pathExists at h1
      unfold Stat at hne ⊢
      cases hent : fs.entry (Join store.Dir name) with
      | file data => rw [hent] at h1; cases h1
      | dir => rw [hent] at h1; cases h1
      | fails err =>
        rw [hent] at hne
        exact ⟨err, rfl, fun e => hne (by rw [e])⟩
    · rintro ⟨err, h1, h2⟩
      have hne : Stat fs (Join store.Dir name) ≠ some .notExist := by
        rw [h1]
        intro e
        exact h2 (Option.some.inj e)
      refine ⟨?_, by rw [hp hne]⟩
      unfold pathExists
      unfold Stat at h1
      cases hent : fs.entry (Join store.Dir name) with
      | file data => rw [hent] at h1; cases h1
      | dir => rw [hent] at h1; cases h1
      | fails e => rfl

theorem Load_fails_iff_stat_not_exist_witness :
    Stat (mainStore.Save (startFS 100) "a.txt" [104, 105]).1
      (Join mainStore.Dir "never-uploaded.txt") = some .notExist ∧
    (ServeHandler id mainStore (mainStore.Save (startFS 100) "a.txt" [104, 105]).1
      ⟨"GET", "/files/never-uploaded.txt", none⟩ "never-uploaded.txt").status = 404 ∧
    Stat (mainStore.Save (startFS 100) "a.txt" [104, 105]).1
      (Join mainStore.Dir "a.txt/x") ≠ some .notExist ∧
    mainStore.Load (mainStore.Save (startFS 100) "a.txt" [104, 105]).1 "a.txt/x" =
      (Join mainStore.Dir "a.txt/x", none) :=
  ⟨by decide,
   (((Load_fails_iff_stat_not_exist id mainStore (mainStore.Save (startFS 100) "a.txt" [104, 105]).1
      "never-uploaded.txt" ⟨"GET", "/files/never-uploaded.txt", none⟩).2.1 (by decide)).2
      (by decide)).1,
   by decide,
   (Load_fails_iff_stat_not_exist id mainStore (mainStore.Save (startFS 100) "a.txt" [104, 105]).1
      "a.txt/x" ⟨"GET", "/", none⟩).2.2.1 (by decide)⟩

set_option maxRecDepth 100000 in
/-- A name longer than `NAME_MAX` that was never uploaded: `os.Stat` fails with
ENAMETOOLONG, `Load` returns no error, and the `GET` is answered 500 by
`http.ServeFile` and not 404. -/
theorem long_name_is_not_404 :
    Stat (startFS 100) (Join mainStore.Dir ⟨List.replicate 300 'a' ++ ['.', 't', 'x', 't']⟩) =
      some .nameTooLong ∧
    (mainStore.Load (startFS 100) ⟨List.replicate 300 'a' ++ ['.', 't', 'x', 't']⟩).2 = none ∧
    (serveHTTP id mainStore (startFS 100)
      ⟨"GET", ⟨"/files/".data ++ List.replicate 300 'a' ++ ['.', 't', 'x', 't']⟩, none⟩).map
        (fun x => x.1.status) = some 500 := by
  refine ⟨by decide, by decide, by decide⟩

/-! ## The serve handler -/

theorem serveContentType_eq_spec (lowerTable : Char → Char) (filename : String) :
    serveContentType lowerTable filename = contentTypeSpec (ToLower lowerTable (Ext filename)) := by
  unfold serveContentType contentTypeSpec
  by_cases h1 : ToLower lowerTable (Ext filename) = ".jpg"
  · simp [h1]
  · by_cases h2 : ToLower lowerTable (Ext filename) = ".jpeg"
    · simp [h2]
    · simp [h1, h2]

/-- When `Load` succeeds, `ServeHandler` sets the `Content-Type` of the table and
hands the joined path to `http.ServeFile`. -/
theorem ServeHandler_of_loaded (lowerTable : Char → Char) (store : LocalStorage) (fs : FS)
    (r : Request) (filename : String)
    (hne : filename ≠ "") (hload : (store.Load fs filename).2 = none) :
    ServeHandler lowerTable store fs r filename =
      ServeFile fs [("Content-Type", contentTypeSpec (ToLower lowerTable (Ext filename)))]
        r.Path (Join store.Dir filename) := by
  have hpresent : fs.entry (Join store.Dir filename) ≠ .fails .notExist := by
    intro hE
    rw [Load_of_absent store fs filename hE] at hload
    cases hload
  unfold ServeHandler
  rw [if_neg hne, Load_of_present store fs filename hpresent]
  simp only [serveContentType_eq_spec]
  rfl

/-- C5: for every filename that `ServeHandler` resolves through `Load`, the
`Content-Type` it sets before serving the file is the entry of the table of
the specification for the lower-cased extension of the filename; so
`report.pdf` gives `application/pdf`, `notes.TXT` gives `text/plain`,
`photo.JPG` gives `image/jpeg` and a name without extension gives
`application/octet-stream`. -/
theorem ServeHandler_content_type (lowerTable : Char → Char) (store : LocalStorage) (fs : FS)
    (r : Request) (filename : String)
    (hne : filename ≠ "") (hload : (store.Load fs filename).2 = none) :
    ServeHandler lowerTable store fs r filename =
      ServeFile fs [("Content-Type", contentTypeSpec (ToLower lowerTable (Ext filename)))]
        r.Path (Join store.Dir filename) ∧
    (∀ data, fs.entry (Join store.Dir filename) = .file data →
      containsDotDot r.Path = false → ¬ "/index.html".data.isSuffixOf r.Path.data →
      (ServeHandler lowerTable store fs r filename).status = 200 ∧
      getHeader (ServeHandler lowerTable store fs r filename).header "Content-Type" =
        some (contentTypeSpec (ToLower lowerTable (Ext filename))) ∧
      (ServeHandler lowerTable store fs r filename).body = .bytes data) ∧
    serveContentType lowerTable "report.pdf" = "application/pdf" ∧
    serveContentType lowerTable "notes.TXT" = "text/plain" ∧
    serveContentType lowerTable "photo.JPG" = "image/jpeg" ∧
    serveContentType lowerTable "README" = "application/octet-stream" := by
  have heq := ServeHandler_of_loaded lowerTable store fs r filename hne hload
  refine ⟨heq, ?_, rfl, rfl, rfl, rfl⟩
  intro data hE hdd hidx
  rw [heq]
  unfold ServeFile
  simp only [hdd, hidx, hE]
  refine ⟨rfl, ?_, rfl⟩
  simp [getHeader]

theorem ServeHandler_content_type_witness :
    (ServeHandler id ⟨"./uploads"⟩ (mainStore.Save (startFS 10) "notes.TXT" [104, 105]).1
      ⟨"GET", "/files/notes.TXT", none⟩ "notes.TXT") =
      ⟨200, [("Content-Type", "text/plain")], .bytes [104, 105]⟩ :=
  (ServeHandler_content_type id ⟨"./uploads"⟩ (mainStore.Save (startFS 10) "notes.TXT" [104, 105]).1
    ⟨"GET", "/files/notes.TXT", none⟩ "notes.TXT" (by decide) (by decide)).1.trans (by decide)

/-! ## The route table -/

/-- Evaluation of the router of `main` on `OPTIONS /upload` (claim C8): only
`POST` is registered for `/upload`, so the request is answered 405 and never
reaches `UploadHandler`, whose `OPTIONS` branch would have answered a bare
200 with no body. -/
theorem options_upload_is_method_not_allowed (lowerTable : Char → Char) (store : LocalStorage)
    (fs : FS) (form : Option MultipartForm) :
    (serveHTTP lowerTable store fs ⟨"OPTIONS", "/upload", form⟩).map (fun x => x.1) =
      some { status := 405, header := [], body := .empty } ∧
    (UploadHandler lowerTable store fs ⟨"OPTIONS", "/upload", form⟩).1.status = 200 ∧
    (UploadHandler lowerTable store fs ⟨"OPTIONS", "/upload", form⟩).1.body = .empty :=
  ⟨rfl, rfl, rfl⟩

/-- Evaluation of an upload and of the GET of the returned URL (claim C3) for the
filename `a?b.txt`: the upload is accepted, saved and answered 201 with the URL
`/files/a?b.txt`; the path of that URL is `/files/a`, so the router hands
`ServeHandler` the filename `a`, and the reply is 404 although the uploaded
bytes are stored. -/
theorem url_of_upload_not_served :
    (UploadHandler id ⟨"./uploads"⟩ (startFS 100)
      ⟨"POST", "/upload", some ⟨some ⟨⟨"a?b.txt", 3⟩, [104, 105, 10]⟩, none⟩⟩).1.status = 201 ∧
    (UploadHandler id ⟨"./uploads"⟩ (startFS 100)
      ⟨"POST", "/upload", some ⟨some ⟨⟨"a?b.txt", 3⟩, [104, 105, 10]⟩, none⟩⟩).1.body =
        .jsonUpload ⟨"a?b.txt", "/files/a?b.txt", 3, "File uploaded successfully"⟩ ∧
    (UploadHandler id ⟨"./uploads"⟩ (startFS 100)
      ⟨"POST", "/upload", some ⟨some ⟨⟨"a?b.txt", 3⟩, [104, 105, 10]⟩, none⟩⟩).2.entry
        "uploads/a?b.txt" = .file [104, 105, 10] ∧
    urlPath "/files/a?b.txt" = "/files/a" ∧
    (serveHTTP id ⟨"./uploads"⟩
      (UploadHandler id ⟨"./uploads"⟩ (startFS 100)
        ⟨"POST", "/upload", some ⟨some ⟨⟨"a?b.txt", 3⟩, [104, 105, 10]⟩, none⟩⟩).2
      ⟨"GET", urlPath "/files/a?b.txt", none⟩).map (fun x => x.1) =
        some (httpError [] "File not found" 404) := by
  refine ⟨by decide, by decide, by decide, by decide, by decide⟩

/-! ## Upload followed by download -/

theorem fieldsLoop_no_slash (n cur : List Char) (h : '/' ∉ n) (h' : '\\' ∉ n) :
    fieldsLoop n cur = if cur.reverse ++ n = [] then [] else [⟨cur.reverse ++ n⟩] := by
  induction n generalizing cur with
  | nil => simp [fieldsLoop]
  | cons c n ih =>
    simp only [List.mem_cons, not_or] at h h'
    have hc : isSlashRune c = false := by
      simp only [isSlashRune, Bool.or_eq_false_iff, beq_eq_false_iff_ne, ne_eq]
      exact ⟨fun e => h.1 e.symm, fun e => h'.1 e.symm⟩
    rw [fieldsLoop, hc, if_neg (by decide), ih _ h.2 h'.2]
    simp

theorem containsDotDot_files (name : String) (h : IsElement name.data) (h' : '\\' ∉ name.data) :
    containsDotDot ("/files/" ++ name) = false := by
  have hd : ("/files/" ++ name).data = '/' :: 'f' :: 'i' :: 'l' :: 'e' :: 's' :: '/' :: name.data := by
    simp [String.data_append]
  unfold containsDotDot
  rw [hd]
  have hf : fieldsLoop ('/' :: 'f' :: 'i' :: 'l' :: 'e' :: 's' :: '/' :: name.data) [] =
      "files" :: fieldsLoop name.data [] := by
    simp [fieldsLoop, isSlashRune]
  rw [hf, fieldsLoop_no_slash name.data [] h.2.1 h']
  have hne : ¬ ([] : List Char).reverse ++ name.data = [] := by simpa using h.1
  have hdd : name ≠ ".." := fun e => h.2.2.2 (by rw [e])
  simp [hne, hdd]

theorem files_data (name : String) :
    ("/files/" ++ name).data = '/' :: 'f' :: 'i' :: 'l' :: 'e' :: 's' :: '/' :: name.data := by
  simp [String.data_append]

theorem takeWhile_no_slash (n : List Char) (h : '/' ∉ n) :
    n.takeWhile (fun c => decide (c ≠ '/')) = n := by
  rw [List.takeWhile_eq_self_iff]
  intro c hc
  simp only [ne_eq, decide_not, Bool.not_eq_true', decide_eq_false_iff_not]
  exact fun e => h (e ▸ hc)

/-- A path `/files/` followed by a single element is matched by the route
`/files/{filename}` only, with the element as the parameter. -/
theorem route_files (name : String) (h : IsElement name.data) :
    mainRoutes.filter (fun rt => (matchPattern rt.pattern ("/files/" ++ name).data).isSome) =
      [{ method := "GET", pattern := [.lit "/files/", .param "filename"], handler := .serve }] ∧
    matchPattern [.lit "/files/", .param "filename"] ("/files/" ++ name).data =
      some [("filename", name)] := by
  obtain ⟨c, rest, hc⟩ := List.exists_cons_of_ne_nil h.1
  have htw := takeWhile_no_slash name.data h.2.1
  have hm : matchPattern [.lit "/files/", .param "filename"] ("/files/" ++ name).data =
      some [("filename", name)] := by
    rw [files_data]
    simp only [matchPattern]
    have hp : ("/files/" : String).data.isPrefixOf
        ('/' :: 'f' :: 'i' :: 'l' :: 'e' :: 's' :: '/' :: name.data) = true := by
      simp [List.isPrefixOf]
    rw [if_pos hp]
    have hdrop : List.drop ("/files/" : String).data.length
        ('/' :: 'f' :: 'i' :: 'l' :: 'e' :: 's' :: '/' :: name.data) = name.data := rfl
    rw [hdrop]
    simp only [htw, List.drop_length, matchPattern]
    rw [if_neg h.1]
    rfl
  refine ⟨?_, hm⟩
  simp only [mainRoutes, List.filter, hm]
  rw [files_data]
  simp [matchPattern, List.isPrefixOf]

theorem not_index_html (lowerTable : Char → Char) (header : FileHeader)
    (h : validateFile lowerTable header = none) :
    ¬ ("/index.html" : String).data.isSuffixOf
        ("/files/" ++ generateSafeFilename header.Filename).data = true := by
  intro hsuf
  obtain ⟨pre, e, h1, h2, h3, h4, h5, _⟩ := accepted_filename_shape lowerTable header h
  rw [List.isSuffixOf_iff_suffix] at hsuf
  obtain ⟨t, ht⟩ := hsuf
  have hA : Ext ("/files/" ++ generateSafeFilename header.Filename) = ⟨'.' :: e⟩ := by
    apply Ext_of_append _ (("/files/" : String).data ++ pre.map sanitizeChar) e _ h3 h4
    rw [String.data_append, generateSafeFilename_data, h1, List.map_append, List.map_cons,
      map_sanitizeChar_id e h4 h5, List.append_assoc]
    rfl
  have hB : Ext ("/files/" ++ generateSafeFilename header.Filename) = ".html" := by
    apply Ext_of_append _ (t ++ ['/', 'i', 'n', 'd', 'e', 'x']) ['h', 't', 'm', 'l'] _
      (by decide) (by decide)
    rw [← ht, List.append_assoc]
    rfl
  rw [hA] at hB
  have hext : Ext header.Filename = ".html" := by rw [h2, hB]
  have hmem := ((validateFile_none_iff lowerTable header).mp h).2
  rw [hext] at hmem
  have hl : ToLower lowerTable ".html" = ".html" := rfl
  rw [hl] at hmem
  exact absurd hmem (by decide)

/-- Every accepted and saved upload is served back under its safe name: a `GET`
whose URL path is `/files/` followed by the filename of the upload response
is answered 200 with exactly the uploaded bytes, whatever was stored before,
and with the `Content-Type` of the extension that was validated. -/
theorem upload_then_get_by_name (lowerTable : Char → Char) (store : LocalStorage) (fs : FS)
    (r : Request) (form : MultipartForm) (f : FormFile)
    (hm : r.Method ≠ "OPTIONS") (hform : r.multipart = some form)
    (hf : form.file = some f ∨ (form.file = none ∧ form.image = some f))
    (hv : validateFile lowerTable f.header = none)
    (hs : (store.Save fs (generateSafeFilename f.header.Filename) f.content).2 = none)
    (g : Request) (hg : g.Method = "GET")
    (hp : g.Path = "/files/" ++ generateSafeFilename f.header.Filename) :
    (serveHTTP lowerTable store (UploadHandler lowerTable store fs r).2 g).map (fun x => x.1) =
      some { status := 200
             header := [("Content-Type", contentTypeSpec (ToLower lowerTable (Ext f.header.Filename)))]
             body := .bytes f.content } := by
  have hfs : (UploadHandler lowerTable store fs r).2 =
      (store.Save fs (generateSafeFilename f.header.Filename) f.content).1 := by
    rw [UploadHandler_accepts lowerTable store fs r form f hm hform hf hv hs]
  have hel := accepted_name_isElement lowerTable f.header hv
  obtain ⟨hent, hload⟩ := Save_then_Load store fs _ f.content hs
  obtain ⟨hr1, hr2⟩ := route_files _ hel
  have hne : generateSafeFilename f.header.Filename ≠ "" := fun e => hel.1 (by rw [e])
  have hserve := ServeHandler_of_loaded lowerTable store
    (store.Save fs (generateSafeFilename f.header.Filename) f.content).1 g
    (generateSafeFilename f.header.Filename) hne (by rw [hload])
  rw [Ext_generateSafeFilename lowerTable f.header hv] at hserve
  rw [hfs]
  unfold serveHTTP
  rw [hp, hr1]
  simp only [List.find?, hg, decide_True, hr2, Option.getD_some]
  have hparam : URLParam [("filename", generateSafeFilename f.header.Filename)] "filename" =
      generateSafeFilename f.header.Filename := by
    simp [URLParam]
  rw [hparam, Option.map_some', hserve, hp]
  unfold ServeFile
  rw [if_neg (by rw [containsDotDot_files _ hel (generateSafeFilename_no_separator _).2]; decide),
    if_neg (not_index_html lowerTable f.header hv), hent]

end FileStorage
